import Mathlib

/-
Verification of the document-processing and citation pipeline of the
IRD-Tax-Intelligence-Compliance-Assistant repository.

The embedding models the Python services in app/services as pure Lean
functions over explicit data:

  * a langchain Document is a record of a page_content string and a
    metadata dictionary; metadata values are modelled by MVal (the
    values the pipeline actually stores: strings and integers);
  * Python dictionaries become insertion-ordered association lists;
  * Python regular-expression substitutions from preprocessing.py become
    explicit character-list scanners with the same left-to-right,
    leftmost-match, greedy semantics as re.sub;
  * code that can raise (integer addition on a non-integer page value in
    metadata_extractor.py) returns an Option, and the try/except of
    loader.py turns a none into the empty list.

Unicode-only behaviour is modelled on its ASCII subset: the Python
regular expression classes for word characters and whitespace are taken
as their ASCII parts, which is what the tax PDFs exercise.
-/

/-- A metadata value as the pipeline stores it: a string or an integer. -/
inductive MVal where
  | str (s : String)
  | int (n : Int)
deriving DecidableEq, Repr

/-- The Python str rendering of a metadata value, as used by f-strings. -/
def MVal.pyStr : MVal → String
  | .str s => s
  | .int n => toString n

/-- Shallow embedding of langchain_core.documents.Document: a text payload
plus a metadata dictionary (insertion-ordered association list). -/
structure Doc where
  page_content : String
  metadata : List (String × MVal)
deriving DecidableEq, Repr

/-- Python dict lookup: the binding of a key, if present. -/
def dictGet : List (String × MVal) → String → Option MVal
  | [], _ => none
  | kv :: t, k => if kv.1 = k then some kv.2 else dictGet t k

/-- Python dict lookup with default, as in dict.get. -/
def dictGetD (m : List (String × MVal)) (k : String) (d : MVal) : MVal :=
  (dictGet m k).getD d

/-- Python dict assignment: overwrite in place if the key exists, append
at the end otherwise (insertion order preserved). -/
def dictSet : List (String × MVal) → String → MVal → List (String × MVal)
  | [], k, v => [(k, v)]
  | kv :: t, k, v => if kv.1 = k then (k, v) :: t else kv :: dictSet t k v

theorem dictGet_dictSet_same (m : List (String × MVal)) (k : String) (v : MVal) :
    dictGet (dictSet m k v) k = some v := by
  induction m with
  | nil => simp [dictGet, dictSet]
  | cons a t ih =>
    by_cases ha : a.1 = k
    · simp [dictGet, dictSet, ha]
    · simp [dictGet, dictSet, ha, ih]

theorem dictGet_dictSet_other (m : List (String × MVal)) (k k' : String) (v : MVal)
    (hne : k' ≠ k) : dictGet (dictSet m k v) k' = dictGet m k' := by
  have hne' : k ≠ k' := Ne.symm hne
  induction m with
  | nil => simp [dictGet, dictSet, hne, hne']
  | cons a t ih =>
    by_cases ha : a.1 = k
    · simp [dictGet, dictSet, ha, hne, hne']
    · by_cases ha' : a.1 = k'
      · simp [dictGet, dictSet, ha, ha', hne, hne']
      · simp [dictGet, dictSet, ha, ha', ih]

/-! ## metadata_extractor.py -/

/-- os.path.basename on a POSIX path: the part after the last slash. -/
def basename (p : String) : String :=
  String.mk ((p.data.reverse.takeWhile (fun c => c ≠ '/')).reverse)

/-- MetadataExtractor._generate_citation_string. -/
def generate_citation_string (filename : String) (page_num : Int) : String :=
  filename ++ " - Page " ++ toString page_num

/-- MetadataExtractor.enrich_metadata.  The Python code computes
meta.get of 'page' with default 0, plus 1; when the stored page value is
a string this raises a TypeError, which the embedding reports as none. -/
def enrich_metadata (doc : Doc) (file_path : String) : Option (List (String × MVal)) :=
  match dictGet doc.metadata "page" with
  | some (.str _) => none
  | some (.int raw_page) =>
      some (dictSet (dictSet (dictSet (dictSet doc.metadata
        "source_document" (.str (basename file_path)))
        "file_path" (.str file_path))
        "page_number" (.int (raw_page + 1)))
        "citation" (.str (generate_citation_string (basename file_path) (raw_page + 1))))
  | none =>
      some (dictSet (dictSet (dictSet (dictSet doc.metadata
        "source_document" (.str (basename file_path)))
        "file_path" (.str file_path))
        "page_number" (.int (0 + 1)))
        "citation" (.str (generate_citation_string (basename file_path) (0 + 1))))

/-- MetadataExtractor.process_documents: enrich every document of a batch;
a TypeError anywhere aborts the batch (the caller catches it). -/
def process_documents (documents : List Doc) (file_path : String) : Option (List Doc) :=
  documents.mapM (fun d =>
    (enrich_metadata d file_path).map (fun m => Doc.mk d.page_content m))

/-- The raw zero-based page value enrich_metadata reads, with its default. -/
def rawPageOf (doc : Doc) : Int :=
  match dictGet doc.metadata "page" with
  | some (.int n) => n
  | _ => 0

/-- C1: for every document whose loader metadata carries no string-valued
'page' entry (the loader stores pages as integers) and every file path,
enrich_metadata succeeds and the returned metadata has source_document
equal to the basename of the path, page_number equal to the zero-based
page plus one (1 when 'page' is absent, since the default raw page is 0),
and citation equal to the string "basename - Page page_number". -/
theorem enrich_metadata_citation_fields (doc : Doc) (file_path : String)
    (h : ∀ s, dictGet doc.metadata "page" ≠ some (.str s)) :
    ∃ m, enrich_metadata doc file_path = some m ∧
      dictGet m "source_document" = some (.str (basename file_path)) ∧
      dictGet m "page_number" = some (.int (rawPageOf doc + 1)) ∧
      (dictGet doc.metadata "page" = none →
        dictGet m "page_number" = some (.int 1)) ∧
      dictGet m "citation" =
        some (.str (basename file_path ++ " - Page " ++ toString (rawPageOf doc + 1))) := by
  cases hp : dictGet doc.metadata "page" with
  | none =>
      refine ⟨_, by rw [enrich_metadata, hp], ?_, ?_, ?_, ?_⟩
      · rw [dictGet_dictSet_other _ _ _ _ (by decide),
          dictGet_dictSet_other _ _ _ _ (by decide),
          dictGet_dictSet_other _ _ _ _ (by decide),
          dictGet_dictSet_same]
      · rw [dictGet_dictSet_other _ _ _ _ (by decide), dictGet_dictSet_same,
          rawPageOf, hp]
      · intro _
        rw [dictGet_dictSet_other _ _ _ _ (by decide), dictGet_dictSet_same]
        decide
      · rw [dictGet_dictSet_same, rawPageOf, hp]
        rfl
  | some v =>
      cases v with
      | str s => exact absurd hp (h s)
      | int n =>
          refine ⟨_, by rw [enrich_metadata, hp], ?_, ?_, ?_, ?_⟩
          · rw [dictGet_dictSet_other _ _ _ _ (by decide),
              dictGet_dictSet_other _ _ _ _ (by decide),
              dictGet_dictSet_other _ _ _ _ (by decide),
              dictGet_dictSet_same]
          · rw [dictGet_dictSet_other _ _ _ _ (by decide), dictGet_dictSet_same,
              rawPageOf, hp]
          · intro hnone
            exact absurd hnone (by simp)
          · rw [dictGet_dictSet_same, rawPageOf, hp]
            rfl

/-- Witness for C1 at a concrete document and path. -/
theorem enrich_metadata_citation_fields_witness :
    ∃ m, enrich_metadata (Doc.mk "hello" [("page", .int 4)]) "data/raw/guide.pdf" = some m ∧
      dictGet m "source_document" = some (.str (basename "data/raw/guide.pdf")) ∧
      dictGet m "page_number" =
        some (.int (rawPageOf (Doc.mk "hello" [("page", .int 4)]) + 1)) ∧
      (dictGet (Doc.mk "hello" [("page", .int 4)]).metadata "page" = none →
        dictGet m "page_number" = some (.int 1)) ∧
      dictGet m "citation" =
        some (.str (basename "data/raw/guide.pdf" ++ " - Page " ++
          toString (rawPageOf (Doc.mk "hello" [("page", .int 4)]) + 1))) :=
  enrich_metadata_citation_fields (Doc.mk "hello" [("page", .int 4)])
    "data/raw/guide.pdf" (by intro s hs; simp [dictGet] at hs)

/-! ## preprocessing.py

TextPreprocessor.clean_text applies five steps to the text:
  1. re.sub of word-hyphen-newline-word to the two words joined;
  2. re.sub of newline, whitespace run, newline to a placeholder;
  3. re.sub of newline to a space;
  4. str.replace of the placeholder by two newlines;
  5. re.sub of space-tab runs to a single space; then str.strip.
Each re.sub is embedded as a single left-to-right scanner with the same
leftmost-match, greedy, resume-after-match semantics. -/

/-- The ASCII part of the regex word class: letters, digits, underscore. -/
def isWordChar (c : Char) : Bool := c.isAlphanum || c = '_'

/-- The ASCII part of the regex whitespace class, which is also the set
str.strip removes. -/
def isPySpace (c : Char) : Bool :=
  c = ' ' || c = '\t' || c = '\n' || c = '\r' || c = '\x0b' || c = '\x0c'

/-- The characters of the paragraph placeholder string. -/
def plChars : List Char :=
  ['|', '|', 'P', 'A', 'R', 'A', 'G', 'R', 'A', 'P', 'H', '|', '|']

/-- Scanner state for the dehyphenation substitution: outside a word run,
inside a run that may be group one of a match, or inside a run the engine
already consumed as group two (re.sub resumes scanning after a match, so
such a run cannot open the next match). -/
inductive HyphSt where
  | outside
  | elig
  | inelig

/-- State after scanning one character. -/
def nextHyphSt (st : HyphSt) (c : Char) : HyphSt :=
  if isWordChar c then
    match st with
    | .inelig => .inelig
    | _ => .elig
  else .outside

/-- Step 1 of clean_text: the substitution joining hyphen-newline-split
words, with re.sub scanning semantics. -/
def dehyphGo : HyphSt → List Char → List Char
  | st, '-' :: '\n' :: c :: rest =>
      match st, isWordChar c with
      | .elig, true => c :: dehyphGo .inelig rest
      | _, _ => '-' :: dehyphGo .outside ('\n' :: c :: rest)
  | st, c :: rest => c :: dehyphGo (nextHyphSt st c) rest
  | _, [] => []

/-- Scanner state for the paragraph-break substitution: none outside a
candidate match; otherwise the flag says whether at least two newlines
have been seen (so the match succeeds and emits the placeholder), and the
list holds the whitespace read since the last newline. -/
def sub2Resolve (b : Bool) (p : List Char) : List Char :=
  (if b then plChars else ['\n']) ++ p

/-- Step 2 of clean_text: the substitution of newline, whitespace run,
newline (greedy, so running to the last newline of the run) by the
placeholder. -/
def sub2Go : Option (Bool × List Char) → List Char → List Char
  | none, [] => []
  | some (b, p), [] => sub2Resolve b p
  | none, c :: rest =>
      if c = '\n' then sub2Go (some (false, [])) rest
      else c :: sub2Go none rest
  | some (b, p), c :: rest =>
      if c = '\n' then sub2Go (some (true, [])) rest
      else if isPySpace c then sub2Go (some (b, p ++ [c])) rest
      else sub2Resolve b p ++ c :: sub2Go none rest

/-- Step 3 of clean_text: every remaining newline becomes a space. -/
def nlToSpace (l : List Char) : List Char :=
  l.map (fun c => if c = '\n' then ' ' else c)

/-- Step 4 of clean_text: str.replace of the placeholder by two newlines,
scanning left to right and skipping each replaced occurrence.  The fuel
argument only bounds the recursion; every step strictly shortens the
text, so fuel equal to the length never runs out. -/
def replacePlGoF : Nat → List Char → List Char
  | 0, l => l
  | _ + 1, [] => []
  | fuel + 1, c :: rest =>
      if plChars.isPrefixOf (c :: rest) then
        '\n' :: '\n' :: replacePlGoF fuel (rest.drop 12)
      else c :: replacePlGoF fuel rest

/-- Step 4 of clean_text on a whole list. -/
def replacePlGo (l : List Char) : List Char := replacePlGoF l.length l

/-- Space or tab, the class collapsed by step 5. -/
def isSpaceTab (c : Char) : Bool := c = ' ' || c = '\t'

/-- Step 5 of clean_text: every space-tab run becomes one space.  The flag
records whether the scanner is inside a run whose space was emitted. -/
def collapseGo : Bool → List Char → List Char
  | _, [] => []
  | inRun, c :: rest =>
      if isSpaceTab c then
        if inRun then collapseGo true rest else ' ' :: collapseGo true rest
      else c :: collapseGo false rest

/-- str.strip on a character list. -/
def pyStripChars (l : List Char) : List Char :=
  ((l.dropWhile isPySpace).reverse.dropWhile isPySpace).reverse

/-- str.strip on a string. -/
def pyStrip (s : String) : String := String.mk (pyStripChars s.data)

/-- The five steps of TextPreprocessor.clean_text on a character list. -/
def cleanChars (l : List Char) : List Char :=
  pyStripChars (collapseGo false (replacePlGo (nlToSpace (sub2Go none (dehyphGo .outside l)))))

/-- TextPreprocessor.clean_text. -/
def clean_text (s : String) : String :=
  if s.data = [] then "" else String.mk (cleanChars s.data)

/-- TextPreprocessor.preprocess_documents: clean every page, keep the
original metadata, and keep only pages whose cleaned content has length
strictly greater than 10. -/
def preprocess_documents : List Doc → List Doc
  | [] => []
  | d :: ds =>
      if 10 < (clean_text d.page_content).data.length then
        Doc.mk (clean_text d.page_content) d.metadata :: preprocess_documents ds
      else preprocess_documents ds

/-! ## loader.py -/

/-- DocumentLoader.load_pdf.  The PyPDFLoader call is external input: its
outcome is a parameter, none when loading itself raises.  The loaded pages
are cleaned, then metadata-enriched; any exception in the try block gives
the empty list. -/
def load_pdf (loaded : Option (List Doc)) (file_path : String) : List Doc :=
  match loaded.bind (fun raw => process_documents (preprocess_documents raw) file_path) with
  | some final => final
  | none => []

/-- C5: DocumentLoader.load_pdf applies the stages in order: when the
pipeline raises no exception its result is process_documents applied to
preprocess_documents applied to the raw loaded pages (clean text before
enrich metadata), and any exception in the sequence (a failed load or a
failed enrichment) yields the empty list. -/
theorem load_pdf_pipeline (raw : List Doc) (file_path : String) :
    (∀ final, process_documents (preprocess_documents raw) file_path = some final →
      load_pdf (some raw) file_path = final) ∧
    (process_documents (preprocess_documents raw) file_path = none →
      load_pdf (some raw) file_path = []) ∧
    load_pdf none file_path = [] := by
  refine ⟨?_, ?_, rfl⟩
  · intro final hfin
    simp [load_pdf, hfin]
  · intro hnone
    simp [load_pdf, hnone]

/-- Witness for C5: a one-page batch that the pipeline processes fully. -/
theorem load_pdf_pipeline_witness :
    load_pdf (some [Doc.mk "income tax guidance text" [("page", .int 0)]]) "data/raw/g.pdf" =
      [Doc.mk "income tax guidance text"
        [("page", .int 0), ("source_document", .str "g.pdf"), ("file_path", .str "data/raw/g.pdf"),
         ("page_number", .int 1), ("citation", .str "g.pdf - Page 1")]] :=
  (load_pdf_pipeline [Doc.mk "income tax guidance text" [("page", .int 0)]] "data/raw/g.pdf").1
    _ (by decide)

/-- C4: text normalization preserves citation fidelity: every document
retained by TextPreprocessor.preprocess_documents has metadata identical
to the metadata of the input document it came from; cleaning changes only
page_content. -/
theorem preprocess_documents_metadata_preserved (docs : List Doc) (d : Doc)
    (hd : d ∈ preprocess_documents docs) :
    ∃ d₀ ∈ docs, d.metadata = d₀.metadata ∧ d.page_content = clean_text d₀.page_content := by
  induction docs with
  | nil => simp [preprocess_documents] at hd
  | cons a t ih =>
    rw [preprocess_documents] at hd
    by_cases hlen : 10 < (clean_text a.page_content).data.length
    · rw [if_pos hlen] at hd
      rcases List.mem_cons.mp hd with h | h
      · exact ⟨a, List.mem_cons_self a t, by rw [h], by rw [h]⟩
      · rcases ih h with ⟨d₀, hd₀, hm, hc⟩
        exact ⟨d₀, List.mem_cons_of_mem a hd₀, hm, hc⟩
    · rw [if_neg hlen] at hd
      rcases ih hd with ⟨d₀, hd₀, hm, hc⟩
      exact ⟨d₀, List.mem_cons_of_mem a hd₀, hm, hc⟩

/-- Witness for C4 at a concrete two-page batch. -/
theorem preprocess_documents_metadata_preserved_witness :
    ∃ d₀ ∈ [Doc.mk "an  assessment\nyear  note" [("page", .int 7)]],
      (Doc.mk "an assessment year note" [("page", .int 7)]).metadata = d₀.metadata ∧
      (Doc.mk "an assessment year note" [("page", .int 7)]).page_content =
        clean_text d₀.page_content :=
  preprocess_documents_metadata_preserved
    [Doc.mk "an  assessment\nyear  note" [("page", .int 7)]]
    (Doc.mk "an assessment year note" [("page", .int 7)]) (by decide)

/-- C8, counterexample: the claim says a page whose cleaned content has
length at most 10 is absent from the output, but an input page whose text
is exactly the cleaned text of a longer page is present in the output even
though its own cleaned content has length at most 10 (cleaning is not
idempotent on placeholder-bearing text, so re-cleaning can shrink below
the threshold). -/
theorem preprocess_documents_short_page_counterexample :
    Doc.mk "ab\n\n\n\n\n\n\n\n\n\ncd" [] ∈
      preprocess_documents
        [Doc.mk "ab\n\n||PARAGRAPH||\n\n||PARAGRAPH||\n\ncd" [],
         Doc.mk "ab\n\n\n\n\n\n\n\n\n\ncd" []] ∧
    (clean_text "ab\n\n\n\n\n\n\n\n\n\ncd").data.length ≤ 10 := by decide

/-- C8, amended: every document in the output of preprocess_documents has
page_content strictly longer than 10 characters; an input page whose
cleaned content has length at most 10 contributes no output document (the
output consists exactly of the cleaned versions, in input order, of the
pages whose cleaned content is longer than 10 characters); and the output
list is never longer than the input list. -/
theorem preprocess_documents_drops_short_pages (docs : List Doc) :
    (∀ d ∈ preprocess_documents docs, 10 < d.page_content.data.length) ∧
    preprocess_documents docs = docs.filterMap (fun d =>
      if 10 < (clean_text d.page_content).data.length then
        some (Doc.mk (clean_text d.page_content) d.metadata)
      else none) ∧
    (preprocess_documents docs).length ≤ docs.length := by
  induction docs with
  | nil => exact ⟨by simp [preprocess_documents], by simp [preprocess_documents], by simp [preprocess_documents]⟩
  | cons a t ih =>
    rcases ih with ⟨ih1, ih2, ih3⟩
    by_cases hlen : 10 < (clean_text a.page_content).data.length
    · refine ⟨?_, ?_, ?_⟩
      · intro d hd
        rw [preprocess_documents, if_pos hlen] at hd
        rcases List.mem_cons.mp hd with h | h
        · rw [h]; exact hlen
        · exact ih1 d h
      · rw [preprocess_documents, if_pos hlen, List.filterMap_cons, if_pos hlen, ih2]
      · rw [preprocess_documents, if_pos hlen]
        simpa using Nat.succ_le_succ ih3
    · refine ⟨?_, ?_, ?_⟩
      · intro d hd
        rw [preprocess_documents, if_neg hlen] at hd
        exact ih1 d hd
      · rw [preprocess_documents, if_neg hlen, List.filterMap_cons, if_neg hlen, ih2]
      · rw [preprocess_documents, if_neg hlen]
        exact Nat.le_succ_of_le ih3

/-- Witness for C8 at a concrete batch with one long and one short page. -/
theorem preprocess_documents_drops_short_pages_witness :
    10 < (Doc.mk "a sufficiently long page" []).page_content.data.length ∧
    (preprocess_documents [Doc.mk "a sufficiently long page" [], Doc.mk "tiny" []]).length ≤ 2 :=
  ⟨(preprocess_documents_drops_short_pages
      [Doc.mk "a sufficiently long page" [], Doc.mk "tiny" []]).1
      (Doc.mk "a sufficiently long page" []) (by decide),
   by
    have h := (preprocess_documents_drops_short_pages
      [Doc.mk "a sufficiently long page" [], Doc.mk "tiny" []]).2.2
    simpa using h⟩

/-! ## rag_chain.py -/

/-- The fallback sentence of the prompt and of RAGChain.query. -/
def fallback_msg : String :=
  "This information is not available in the provided IRD documents."

/-- RAGChain._is_relevant: keep a chunk when its stripped content is
strictly longer than 50 characters. -/
def is_relevant (doc : Doc) : Bool :=
  50 < (pyStrip doc.page_content).data.length

/-- The relevance-filtering step of RAGChain.query (step 2 of the method). -/
def query_kept (retrieved : List Doc) : List Doc :=
  retrieved.filter is_relevant

/-- A citation entry as RAGChain._extract_citations builds it. -/
structure Citation where
  document : MVal
  page : MVal
  content_preview : String
deriving DecidableEq, Repr

/-- The deduplication key of _extract_citations: the f-string of source,
underscore, page. -/
def citation_key (doc : Doc) : String :=
  (dictGetD doc.metadata "source_document" (.str "Unknown")).pyStr ++ "_" ++
    (dictGetD doc.metadata "page_number" (.str "?")).pyStr

/-- The citation dictionary value built for a document. -/
def mk_citation (doc : Doc) : Citation :=
  { document := dictGetD doc.metadata "source_document" (.str "Unknown"),
    page := dictGetD doc.metadata "page_number" (.str "?"),
    content_preview := String.mk (doc.page_content.data.take 150) ++ "..." }

/-- The (source_document, page_number) pair of a document, with the
defaults _extract_citations uses. -/
def docPair (d : Doc) : MVal × MVal :=
  (dictGetD d.metadata "source_document" (.str "Unknown"),
   dictGetD d.metadata "page_number" (.str "?"))

/-- The key of a (source, page) pair; citation_key factors through it. -/
def pairKey (p : MVal × MVal) : String :=
  p.1.pyStr ++ "_" ++ p.2.pyStr

/-- RAGChain._extract_citations: fill an insertion-ordered dictionary
keyed by the source-underscore-page string, first document wins. -/
def extract_citations_go (dict : List (String × Citation)) : List Doc → List (String × Citation)
  | [] => dict
  | d :: ds =>
      if dict.any (fun kv => kv.1 = citation_key d) then extract_citations_go dict ds
      else extract_citations_go (dict ++ [(citation_key d, mk_citation d)]) ds

/-- RAGChain._extract_citations: the dictionary values in insertion order. -/
def extract_citations (source_docs : List Doc) : List Citation :=
  (extract_citations_go [] source_docs).map (fun kv => kv.2)

/-- Deduplication by (source, page) pair as the specification words it:
keep the first document of each pair, in order of first occurrence. -/
def citationsSpecGo (seen : List (MVal × MVal)) : List Doc → List Citation
  | [] => []
  | d :: ds =>
      if docPair d ∈ seen then citationsSpecGo seen ds
      else mk_citation d :: citationsSpecGo (docPair d :: seen) ds

/-- Pair-based first-occurrence deduplication, the claimed behaviour. -/
def citationsSpec (docs : List Doc) : List Citation :=
  citationsSpecGo [] docs

/-- The Python substring test on character lists. -/
def hasInfix (pat : List Char) : List Char → Bool
  | [] => pat.isPrefixOf []
  | c :: t => pat.isPrefixOf (c :: t) || hasInfix pat t

/-- RAGChain.query as a function of the retrieved documents and of the
answer the hosted model returns: the relevance filter, the citation
extraction over the kept documents, and the erasure of citations when the
answer contains the fallback sentence. -/
def rag_query (retrieved : List Doc) (answer : String) : String × List Citation :=
  let docs := query_kept retrieved
  let citations := extract_citations docs
  (answer, if hasInfix fallback_msg.data answer.data then [] else citations)

/-- C3: the only re-ranking RAGChain.query applies to retrieved chunks is
the length filter: the kept documents form a sublist of the retrieval
order (no reordering), and a document is kept exactly when it occurs among
the retrieved ones with stripped page content longer than 50 characters. -/
theorem query_kept_length_filter (retrieved : List Doc) :
    (query_kept retrieved).Sublist retrieved ∧
    ∀ d, d ∈ query_kept retrieved ↔
      (d ∈ retrieved ∧ 50 < (pyStrip d.page_content).data.length) := by
  refine ⟨List.filter_sublist retrieved, fun d => ?_⟩
  rw [query_kept, List.mem_filter, is_relevant]
  simp

/-- C9: when the generated answer contains the fallback sentence, the
citations RAGChain.query returns are erased to the empty list. -/
theorem rag_query_fallback_no_citations (retrieved : List Doc) (answer : String)
    (h : hasInfix fallback_msg.data answer.data = true) :
    (rag_query retrieved answer).2 = [] := by
  simp [rag_query, h]

/-- Witness for C9: the answer that is exactly the fallback sentence. -/
theorem rag_query_fallback_no_citations_witness :
    (rag_query [Doc.mk "some sufficiently long retrieved chunk of tax guidance text here" []]
      fallback_msg).2 = [] :=
  rag_query_fallback_no_citations _ fallback_msg (by decide)

theorem citation_key_eq_pairKey (d : Doc) : citation_key d = pairKey (docPair d) := rfl

theorem mk_citation_pair (d : Doc) :
    ((mk_citation d).document, (mk_citation d).page) = docPair d := rfl

theorem extract_go_spec (docs : List Doc) :
    ∀ (dict : List (String × Citation)) (seen : List (MVal × MVal)),
    (∀ k, (dict.any (fun kv => kv.1 = k)) = true ↔ ∃ p ∈ seen, pairKey p = k) →
    (∀ d ∈ docs, ∀ p ∈ seen, pairKey (docPair d) = pairKey p → docPair d = p) →
    (∀ d₁ ∈ docs, ∀ d₂ ∈ docs, citation_key d₁ = citation_key d₂ → docPair d₁ = docPair d₂) →
    (extract_citations_go dict docs).map (fun kv => kv.2) =
      dict.map (fun kv => kv.2) ++ citationsSpecGo seen docs := by
  induction docs with
  | nil => intro dict seen _ _ _; simp [extract_citations_go, citationsSpecGo]
  | cons d ds ih =>
    intro dict seen h1 h2 h3
    have hmem : (dict.any (fun kv => kv.1 = citation_key d)) = true ↔ docPair d ∈ seen := by
      rw [h1]
      constructor
      · rintro ⟨p, hp, hkey⟩
        have := h2 d (List.mem_cons_self d ds) p hp (by rw [citation_key_eq_pairKey] at hkey; exact hkey.symm)
        rwa [this]
      · intro hp
        exact ⟨docPair d, hp, (citation_key_eq_pairKey d).symm⟩
    rw [extract_citations_go, citationsSpecGo]
    by_cases hin : docPair d ∈ seen
    · rw [if_pos (hmem.mpr hin), if_pos hin]
      exact ih dict seen h1
        (fun d' hd' => h2 d' (List.mem_cons_of_mem d hd'))
        (fun d₁ h₁ d₂ h₂' => h3 d₁ (List.mem_cons_of_mem d h₁) d₂ (List.mem_cons_of_mem d h₂'))
    · have hany : ¬ (dict.any (fun kv => kv.1 = citation_key d)) = true := fun h => hin (hmem.mp h)
      rw [if_neg hany, if_neg hin]
      have h1' : ∀ k, ((dict ++ [(citation_key d, mk_citation d)]).any (fun kv => kv.1 = k)) = true ↔
          ∃ p ∈ docPair d :: seen, pairKey p = k := by
        intro k
        rw [List.any_append]
        simp only [List.any_cons, List.any_nil, Bool.or_false, Bool.or_eq_true,
          decide_eq_true_eq, List.mem_cons]
        constructor
        · rintro (h | h)
          · rcases (h1 k).mp h with ⟨p, hp, hk⟩
            exact ⟨p, Or.inr hp, hk⟩
          · exact ⟨docPair d, Or.inl rfl, by rw [← citation_key_eq_pairKey, h]⟩
        · rintro ⟨p, hp | hp, hk⟩
          · right; rw [hp] at hk; rw [← hk, citation_key_eq_pairKey]
          · left; exact (h1 k).mpr ⟨p, hp, hk⟩
      have h2' : ∀ d' ∈ ds, ∀ p ∈ docPair d :: seen,
          pairKey (docPair d') = pairKey p → docPair d' = p := by
        intro d' hd' p hp hk
        rcases List.mem_cons.mp hp with hp | hp
        · rw [hp] at hk ⊢
          exact h3 d' (List.mem_cons_of_mem d hd') d (List.mem_cons_self d ds)
            (by rw [citation_key_eq_pairKey, citation_key_eq_pairKey]; exact hk)
        · exact h2 d' (List.mem_cons_of_mem d hd') p hp hk
      rw [ih _ _ h1' h2'
        (fun d₁ h₁ d₂ h₂' => h3 d₁ (List.mem_cons_of_mem d h₁) d₂ (List.mem_cons_of_mem d h₂'))]
      simp

theorem citationsSpecGo_pairwise (docs : List Doc) :
    ∀ seen, (∀ c ∈ citationsSpecGo seen docs, (c.document, c.page) ∉ seen) ∧
      (citationsSpecGo seen docs).Pairwise
        (fun c₁ c₂ => (c₁.document, c₁.page) ≠ (c₂.document, c₂.page)) := by
  induction docs with
  | nil => intro seen; simp [citationsSpecGo]
  | cons d ds ih =>
    intro seen
    rw [citationsSpecGo]
    by_cases hin : docPair d ∈ seen
    · rw [if_pos hin]; exact ih seen
    · rw [if_neg hin]
      rcases ih (docPair d :: seen) with ⟨ihn, ihp⟩
      refine ⟨?_, ?_⟩
      · intro c hc
        rcases List.mem_cons.mp hc with hc | hc
        · rw [hc, mk_citation_pair]; exact hin
        · intro hmem
          exact (ihn c hc) (List.mem_cons_of_mem _ hmem)
      · rw [List.pairwise_cons]
        refine ⟨?_, ihp⟩
        intro c hc heq
        exact (ihn c hc) (by rw [← heq, mk_citation_pair]; exact List.mem_cons_self _ _)

/-- C2, amended: RAGChain._extract_citations deduplicates by the string
key source-underscore-page rather than by the (source, page) pair itself,
so the claimed pair-level behaviour holds exactly when distinct pairs in
the input yield distinct keys (which is the case for the integer pages
the loader produces): under that hypothesis the returned list keeps, in
order of first occurrence, one citation per (source, page) pair of the
input, carrying the first such document and its content preview, and no
two returned citations share a pair. -/
theorem extract_citations_pair_dedup (docs : List Doc)
    (hinj : ∀ d₁ ∈ docs, ∀ d₂ ∈ docs,
      citation_key d₁ = citation_key d₂ → docPair d₁ = docPair d₂) :
    extract_citations docs = citationsSpec docs ∧
    (extract_citations docs).Pairwise
      (fun c₁ c₂ => (c₁.document, c₁.page) ≠ (c₂.document, c₂.page)) := by
  have heq : extract_citations docs = citationsSpec docs := by
    have := extract_go_spec docs [] []
      (by intro k; simp) (by intro d _ p hp; simp at hp) hinj
    simpa [extract_citations, citationsSpec] using this
  exact ⟨heq, by rw [heq]; exact (citationsSpecGo_pairwise docs []).2⟩

/-- Witness for C2 at a concrete retrieval with a repeated page. -/
theorem extract_citations_pair_dedup_witness :
    extract_citations
      [Doc.mk "alpha" [("source_document", .str "g.pdf"), ("page_number", .int 1)],
       Doc.mk "beta" [("source_document", .str "g.pdf"), ("page_number", .int 1)],
       Doc.mk "gamma" [("source_document", .str "g.pdf"), ("page_number", .int 2)]] =
    citationsSpec
      [Doc.mk "alpha" [("source_document", .str "g.pdf"), ("page_number", .int 1)],
       Doc.mk "beta" [("source_document", .str "g.pdf"), ("page_number", .int 1)],
       Doc.mk "gamma" [("source_document", .str "g.pdf"), ("page_number", .int 2)]] :=
  (extract_citations_pair_dedup _ (by decide)).1

/-- C2, counterexample: deduplication is by the concatenated string key,
and the keys of the distinct pairs (source "a_1", integer page 2) and
(source "a", string page "1_2") collide, so the second pair of the input
yields no citation at all, refuting the claim that every (source, page)
pair occurring in the input appears exactly once. -/
theorem extract_citations_pair_counterexample :
    Doc.mk "c2" [("source_document", .str "a"), ("page_number", .str "1_2")] ∈
      [Doc.mk "c1" [("source_document", .str "a_1"), ("page_number", .int 2)],
       Doc.mk "c2" [("source_document", .str "a"), ("page_number", .str "1_2")]] ∧
    ¬ ∃ c ∈ extract_citations
      [Doc.mk "c1" [("source_document", .str "a_1"), ("page_number", .int 2)],
       Doc.mk "c2" [("source_document", .str "a"), ("page_number", .str "1_2")]],
      c.document = MVal.str "a" ∧ c.page = MVal.str "1_2" := by decide

/-! ## chunker.py and the text splitter -/

/-- The chunking defaults of app/config.py. -/
def CHUNK_SIZE : Nat := 1000

/-- The chunking overlap default of app/config.py. -/
def CHUNK_OVERLAP : Nat := 200

/-- The Python or-chain of TextChunker.__init__: an argument that is
None, or falsy zero, falls back to the settings value. -/
def resolveSetting (arg : Option Nat) (dflt : Nat) : Nat :=
  match arg with
  | none => dflt
  | some n => if n = 0 then dflt else n

/-- The configuration a TextChunker instance holds. -/
structure TextChunker where
  chunk_size : Nat
  chunk_overlap : Nat
deriving DecidableEq, Repr

/-- TextChunker.__init__ with its argument-then-settings resolution. -/
def mkTextChunker (chunk_size chunk_overlap : Option Nat) : TextChunker :=
  { chunk_size := resolveSetting chunk_size CHUNK_SIZE,
    chunk_overlap := resolveSetting chunk_overlap CHUNK_OVERLAP }

/-- Modelled from the spec: RecursiveCharacterTextSplitter.split_text of
the external langchain_text_splitters package is not part of this
repository; the spec describes it as splitting the text into overlapping
chunks of the configured size, which is embedded as a sliding window of
width size and stride step (size minus overlap).  The fuel argument
bounds the recursion and is set to the text length, which one window
step always strictly decreases. -/
def slidingChunksF (size step : Nat) : Nat → List Char → List (List Char)
  | 0, l => [l]
  | fuel + 1, l =>
      if l.length ≤ size ∨ step = 0 then [l]
      else l.take size :: slidingChunksF size step fuel (l.drop step)

/-- The sliding-window chunking of a character list. -/
def slidingChunks (size step : Nat) (l : List Char) : List (List Char) :=
  slidingChunksF size step l.length l

theorem slidingChunksF_fuel (size step : Nat) :
    ∀ fuel₁ fuel₂ l, l.length ≤ fuel₁ → l.length ≤ fuel₂ →
      slidingChunksF size step fuel₁ l = slidingChunksF size step fuel₂ l := by
  intro fuel₁
  induction fuel₁ with
  | zero =>
    intro fuel₂ l h1 _
    have hl : l = [] := List.eq_nil_of_length_eq_zero (Nat.le_zero.mp h1)
    subst hl
    cases fuel₂ with
    | zero => rfl
    | succ f => simp [slidingChunksF]
  | succ f₁ ih =>
    intro fuel₂ l h1 h2
    cases fuel₂ with
    | zero =>
      have hl : l = [] := List.eq_nil_of_length_eq_zero (Nat.le_zero.mp h2)
      subst hl
      simp [slidingChunksF]
    | succ f₂ =>
      rw [slidingChunksF, slidingChunksF]
      by_cases hc : l.length ≤ size ∨ step = 0
      · rw [if_pos hc, if_pos hc]
      · rw [if_neg hc, if_neg hc]
        push_neg at hc
        have hstep : 0 < step := Nat.pos_of_ne_zero hc.2
        have hdrop : (l.drop step).length ≤ f₁ := by
          rw [List.length_drop]
          omega
        have hdrop2 : (l.drop step).length ≤ f₂ := by
          rw [List.length_drop]
          omega
        rw [ih _ _ hdrop hdrop2]

theorem slidingChunks_unfold (size step : Nat) (l : List Char) :
    slidingChunks size step l =
      if l.length ≤ size ∨ step = 0 then [l]
      else l.take size :: slidingChunks size step (l.drop step) := by
  by_cases hc : l.length ≤ size ∨ step = 0
  · rw [if_pos hc, slidingChunks]
    cases l with
    | nil => rfl
    | cons c t =>
      show slidingChunksF size step (t.length + 1) (c :: t) = [c :: t]
      rw [slidingChunksF, if_pos (by simpa using hc)]
  · rw [if_neg hc, slidingChunks]
    push_neg at hc
    cases l with
    | nil => exact absurd hc.1 (by simp)
    | cons c t =>
      show slidingChunksF size step (t.length + 1) (c :: t) =
        (c :: t).take size :: slidingChunks size step ((c :: t).drop step)
      rw [slidingChunksF, if_neg (by push_neg; exact ⟨Nat.not_le.mp (Nat.not_le.mpr hc.1), hc.2⟩)]
      rw [slidingChunks]
      have hstep : 0 < step := Nat.pos_of_ne_zero hc.2
      have h1 : ((c :: t).drop step).length ≤ t.length := by
        rw [List.length_drop, List.length_cons]
        omega
      rw [slidingChunksF_fuel size step t.length ((c :: t).drop step).length _ h1 (Nat.le_refl _)]

/-- The splitter on strings. -/
def splitter_split_text (size overlap : Nat) (s : String) : List String :=
  (slidingChunks size (size - overlap) s.data).map String.mk

/-- TextChunker.split_text: the empty-text guard of chunker.py, then the
configured splitter. -/
def split_text (tc : TextChunker) (s : String) : List String :=
  if s.data = [] then [] else splitter_split_text tc.chunk_size tc.chunk_overlap s

/-- TextChunker.split_documents: the empty-batch guard of chunker.py,
then the splitter over every page, each chunk keeping the page metadata
(the library raises no exception here, so the except branch is dead). -/
def split_documents (tc : TextChunker) (documents : List Doc) : List Doc :=
  if documents = [] then []
  else documents.flatMap (fun d =>
    (splitter_split_text tc.chunk_size tc.chunk_overlap d.page_content).map
      (fun c => Doc.mk c d.metadata))

theorem slidingChunks_overlap_aux (size step : Nat) (hstep : 0 < step) (hlt : step < size) :
    ∀ n (l : List Char), l.length ≤ n → ∀ (pre : List (List Char)) c₁ c₂ post,
      slidingChunks size step l = pre ++ c₁ :: c₂ :: post →
      ∃ seg, seg ≠ [] ∧ seg <:+ c₁ ∧ seg <+: c₂ := by
  intro n
  induction n with
  | zero =>
    intro l hl pre c₁ c₂ post h
    have hnil : l = [] := List.eq_nil_of_length_eq_zero (Nat.le_zero.mp hl)
    subst hnil
    rw [slidingChunks_unfold, if_pos (Or.inl (by simp))] at h
    have := congrArg List.length h
    simp at this
    omega
  | succ n ih =>
    intro l hl pre c₁ c₂ post h
    rw [slidingChunks_unfold] at h
    by_cases hc : l.length ≤ size ∨ step = 0
    · rw [if_pos hc] at h
      have := congrArg List.length h
      simp at this
      omega
    · rw [if_neg hc] at h
      push_neg at hc
      cases pre with
      | nil =>
        simp only [List.nil_append] at h
        injection h with h1 h2
        refine ⟨(l.drop step).take (size - step), ?_, ?_, ?_⟩
        · have hdrop : l.drop step ≠ [] := by
            intro hd
            have := congrArg List.length hd
            rw [List.length_drop] at this
            simp at this
            omega
          intro hseg
          rcases List.take_eq_nil_iff.mp hseg with h0 | h0
          · omega
          · exact hdrop h0
        · refine ⟨l.take step, ?_⟩
          rw [← h1]
          have hsum : step + (size - step) = size := by omega
          rw [← hsum, List.take_add]
          congr 2
          omega
        · rw [slidingChunks_unfold] at h2
          by_cases hc2 : (l.drop step).length ≤ size ∨ step = 0
          · rw [if_pos hc2] at h2
            injection h2 with h2a h2b
            rw [← h2a]
            exact List.take_prefix _ _
          · rw [if_neg hc2] at h2
            injection h2 with h2a h2b
            rw [← h2a]
            have : (l.drop step).take (size - step) =
                ((l.drop step).take size).take (size - step) := by
              rw [List.take_take, min_eq_left (by omega)]
            rw [this]
            exact List.take_prefix _ _
      | cons p pre' =>
        injection h with h1 h2
        have hdlen : (l.drop step).length ≤ n := by
          rw [List.length_drop]
          omega
        exact ih (l.drop step) hdlen pre' c₁ c₂ post h2

/-- C7: for every text for which the configured splitter produces more
than one chunk, every pair of consecutive chunks of TextChunker.split_text
shares a non-empty overlapping segment (a suffix of the earlier chunk
that is a prefix of the later one), whenever the configured overlap is
positive and smaller than the chunk size, as in the defaults 1000 and
200. -/
theorem split_text_consecutive_overlap (tc : TextChunker) (s : String)
    (hov : 0 < tc.chunk_overlap) (hlt : tc.chunk_overlap < tc.chunk_size)
    (pre : List String) (c₁ c₂ : String) (post : List String)
    (h : split_text tc s = pre ++ c₁ :: c₂ :: post) :
    ∃ seg : List Char, seg ≠ [] ∧ seg <:+ c₁.data ∧ seg <+: c₂.data := by
  rw [split_text] at h
  by_cases hnil : s.data = []
  · rw [if_pos hnil] at h
    have := congrArg List.length h
    simp at this
    omega
  · rw [if_neg hnil, splitter_split_text] at h
    have hdata : slidingChunks tc.chunk_size (tc.chunk_size - tc.chunk_overlap) s.data =
        (pre.map String.data) ++ c₁.data :: c₂.data :: (post.map String.data) := by
      have hmapped := congrArg (List.map String.data) h
      rw [List.map_map] at hmapped
      have hid : (String.data ∘ String.mk) = id := by
        funext l
        rfl
      rw [hid, List.map_id] at hmapped
      rw [hmapped]
      simp
    exact slidingChunks_overlap_aux tc.chunk_size (tc.chunk_size - tc.chunk_overlap)
      (by omega) (by omega) s.data.length s.data (Nat.le_refl _) _ _ _ _ hdata

/-- Witness for C7: window 3 with overlap 1 over a five-character text,
giving chunks abc and cde sharing the segment c. -/
theorem split_text_consecutive_overlap_witness :
    ∃ seg : List Char, seg ≠ [] ∧ seg <:+ "abc".data ∧ seg <+: "cde".data :=
  split_text_consecutive_overlap (mkTextChunker (some 3) (some 1)) "abcde"
    (by decide) (by decide) [] "abc" "cde" [] (by decide)

/-- C6: chunking is deterministic: two runs of split_documents or
split_text with equal configuration on equal inputs give equal chunk
lists (the embedded computation is a pure function of the text and of the
configuration), and both operations return the empty list on empty
input, through the guards of chunker.py. -/
theorem chunking_deterministic (cs co : Option Nat) (docs₁ docs₂ : List Doc) (s₁ s₂ : String)
    (hdocs : docs₁ = docs₂) (hs : s₁ = s₂) :
    split_documents (mkTextChunker cs co) docs₁ = split_documents (mkTextChunker cs co) docs₂ ∧
    split_text (mkTextChunker cs co) s₁ = split_text (mkTextChunker cs co) s₂ ∧
    split_documents (mkTextChunker cs co) [] = [] ∧
    split_text (mkTextChunker cs co) "" = [] := by
  subst hdocs
  subst hs
  refine ⟨rfl, rfl, by rw [split_documents, if_pos rfl], by rw [split_text, if_pos rfl]⟩

/-- Witness for C6 with the default configuration on concrete inputs. -/
theorem chunking_deterministic_witness :
    split_documents (mkTextChunker none none) [Doc.mk "abc" []] =
      split_documents (mkTextChunker none none) [Doc.mk "abc" []] ∧
    split_text (mkTextChunker none none) "abc" = split_text (mkTextChunker none none) "abc" ∧
    split_documents (mkTextChunker none none) [] = [] ∧
    split_text (mkTextChunker none none) "" = [] :=
  chunking_deterministic none none [Doc.mk "abc" []] [Doc.mk "abc" []] "abc" "abc" rfl rfl

/-! ## Idempotence analysis of clean_text

The idempotence proof characterises the shape of clean_text outputs: a
join of newline-free segments separated by exact double newlines, with no
tab, no double space, no adjacent pipes, interior segments holding a
non-whitespace character, and stripped ends.  On inputs free of adjacent
pipes the output has this shape and a second pass is the identity. -/

/-- No two adjacent characters of the list are a then b. -/
def noPair (a b : Char) : List Char → Bool
  | x :: y :: rest => if x = a ∧ y = b then false else noPair a b (y :: rest)
  | _ => true

/-- The double-newline separator restored by step 4 of clean_text. -/
def nl2 : List Char := ['\n', '\n']

/-- Join segments with a separator between consecutive segments. -/
def joinWith (sep : List Char) : List (List Char) → List Char
  | [] => []
  | [u] => u
  | u :: us => u ++ sep ++ joinWith sep us

/-- A segment holds some non-whitespace character. -/
def hasNonWs (u : List Char) : Prop := ∃ c ∈ u, isPySpace c = false

/-- The per-segment conditions of a clean_text output. -/
def segBasic (u : List Char) : Prop :=
  '\n' ∉ u ∧ '\t' ∉ u ∧ noPair ' ' ' ' u = true ∧ noPair '|' '|' u = true

/-- The full shape of a clean_text output: segments as above, every
segment after the first containing non-whitespace, nonempty first and
last segments with non-whitespace outer characters. -/
def SegsOK (us : List (List Char)) : Prop :=
  (∀ u ∈ us, segBasic u) ∧
  (∀ u ∈ us.tail, hasNonWs u) ∧
  (∃ u c t, us.head? = some u ∧ u = c :: t ∧ isPySpace c = false) ∧
  (∃ u c, us.getLast? = some u ∧ u.getLast? = some c ∧ isPySpace c = false)

/-- Shape of every clean_text output on input with no adjacent pipes. -/
def CleanShape (l : List Char) : Prop :=
  l = [] ∨ ∃ us, SegsOK us ∧ l = joinWith nl2 us

theorem noPair_cons_iff (a b x : Char) (l : List Char) :
    noPair a b (x :: l) = true ↔
      (¬(x = a ∧ l.head? = some b) ∧ noPair a b l = true) := by
  cases l with
  | nil => simp [noPair]
  | cons y t =>
    by_cases hxy : x = a ∧ y = b
    · simp [noPair, hxy, hxy.1, hxy.2]
    · have : ¬(x = a ∧ (y :: t).head? = some b) := by
        simpa using hxy
      simp [noPair, hxy, this]

theorem noPair_tail (a b x : Char) (l : List Char)
    (h : noPair a b (x :: l) = true) : noPair a b l = true :=
  ((noPair_cons_iff a b x l).mp h).2

theorem noPair_of_all_ne (a b : Char) (l : List Char) (h : ∀ x ∈ l, x ≠ a) :
    noPair a b l = true := by
  induction l with
  | nil => rfl
  | cons x t ih =>
    rw [noPair_cons_iff]
    exact ⟨fun hx => h x (List.mem_cons_self x t) hx.1,
      ih (fun y hy => h y (List.mem_cons_of_mem x hy))⟩

theorem noPair_append_left_safe (a b : Char) (p t : List Char)
    (hp : ∀ x ∈ p, x ≠ a) (ht : noPair a b t = true) :
    noPair a b (p ++ t) = true := by
  induction p with
  | nil => simpa using ht
  | cons x p' ih =>
    rw [List.cons_append, noPair_cons_iff]
    exact ⟨fun hx => hp x (List.mem_cons_self x p') hx.1,
      ih (fun y hy => hp y (List.mem_cons_of_mem x hy))⟩

theorem noPair_append_intro (a b : Char) (u v : List Char)
    (hu : noPair a b u = true) (hv : noPair a b v = true)
    (hb : ¬(u.getLast? = some a ∧ v.head? = some b)) :
    noPair a b (u ++ v) = true := by
  induction u with
  | nil => simpa using hv
  | cons x u' ih =>
    rw [List.cons_append, noPair_cons_iff]
    constructor
    · rintro ⟨hx, hhead⟩
      cases u' with
      | nil =>
        simp only [List.nil_append] at hhead
        exact hb ⟨by simp [hx], hhead⟩
      | cons y u'' =>
        simp only [List.cons_append, List.head?_cons] at hhead
        exact absurd ((noPair_cons_iff a b x (y :: u'')).mp hu)
          (by simp [hx, hhead])
    · refine ih (noPair_tail a b x u' hu) ?_
      intro hlast
      apply hb
      refine ⟨?_, hlast.2⟩
      cases u' with
      | nil => exact absurd hlast.1 (by simp)
      | cons y u'' => rw [← hlast.1, List.getLast?_cons_cons]

theorem noPair_append_left (a b : Char) (u v : List Char)
    (h : noPair a b (u ++ v) = true) : noPair a b u = true := by
  induction u with
  | nil => rfl
  | cons x u' ih =>
    rw [List.cons_append] at h
    rw [noPair_cons_iff]
    refine ⟨?_, ih (noPair_tail a b x (u' ++ v) h)⟩
    rintro ⟨hx, hhead⟩
    rcases ((noPair_cons_iff a b x (u' ++ v)).mp h) with ⟨hne, _⟩
    apply hne
    refine ⟨hx, ?_⟩
    cases u' with
    | nil => simp at hhead
    | cons y u'' => simpa using hhead

theorem noPair_append_right (a b : Char) (u v : List Char)
    (h : noPair a b (u ++ v) = true) : noPair a b v = true := by
  induction u with
  | nil => simpa using h
  | cons x u' ih => exact ih (noPair_tail a b x (u' ++ v) (by simpa using h))

theorem joinWith_cons (sep u : List Char) (us : List (List Char)) (h : us ≠ []) :
    joinWith sep (u :: us) = u ++ sep ++ joinWith sep us := by
  cases us with
  | nil => exact absurd rfl h
  | cons v vs => rfl

theorem mem_joinWith (sep : List Char) (us : List (List Char)) (c : Char)
    (h : c ∈ joinWith sep us) : c ∈ sep ∨ ∃ u ∈ us, c ∈ u := by
  induction us with
  | nil => simp [joinWith] at h
  | cons u us ih =>
    cases us with
    | nil =>
      simp only [joinWith] at h
      exact Or.inr ⟨u, List.mem_cons_self u [], h⟩
    | cons v vs =>
      rw [joinWith_cons sep u (v :: vs) (by simp)] at h
      rcases List.mem_append.mp h with h1 | h1
      · rcases List.mem_append.mp h1 with h2 | h2
        · exact Or.inr ⟨u, List.mem_cons_self u _, h2⟩
        · exact Or.inl h2
      · rcases ih h1 with h2 | ⟨w, hw, hc⟩
        · exact Or.inl h2
        · exact Or.inr ⟨w, List.mem_cons_of_mem u hw, hc⟩

/-- No dehyphenation match: no hyphen-newline pair followed by a word
character occurs in the list. -/
def noHB : List Char → Bool
  | '-' :: '\n' :: c :: rest => if isWordChar c then false else noHB ('\n' :: c :: rest)
  | _ :: rest => noHB rest
  | [] => true

theorem noHB_tail (x : Char) (l : List Char) (h : noHB (x :: l) = true) :
    noHB l = true := by
  cases l with
  | nil => rfl
  | cons y ys =>
    cases ys with
    | nil =>
      by_cases hx : x = '-'
      · subst hx
        by_cases hy : y = '\n'
        · subst hy; simpa [noHB] using h
        · simpa [noHB, hy] using h
      · simpa [noHB, hx] using h
    | cons c rest =>
      by_cases hx : x = '-'
      · subst hx
        by_cases hy : y = '\n'
        · subst hy
          rw [noHB] at h
          by_cases hw : isWordChar c
          · rw [if_pos hw] at h; exact absurd h (by simp)
          · rw [if_neg hw] at h; exact h
        · simpa [noHB, hy] using h
      · simpa [noHB, hx] using h

theorem dehyphGo_id (l : List Char) (h : noHB l = true) :
    ∀ st, dehyphGo st l = l := by
  induction l with
  | nil => intro st; rfl
  | cons x xs ih =>
    intro st
    cases xs with
    | nil => simp [dehyphGo]
    | cons y ys =>
      cases ys with
      | nil =>
        by_cases hy : y = '\n'
        · subst hy
          by_cases hx : x = '-'
          · subst hx; simp [dehyphGo]
          · simp [dehyphGo, hx]
        · simp [dehyphGo, hy]
      | cons c rest =>
        by_cases hx : x = '-'
        · subst hx
          by_cases hy : y = '\n'
          · subst hy
            rw [noHB] at h
            by_cases hw : isWordChar c
            · rw [if_pos hw] at h; exact absurd h (by simp)
            · rw [if_neg hw] at h
              have harm : dehyphGo st ('-' :: '\n' :: c :: rest) =
                  '-' :: dehyphGo .outside ('\n' :: c :: rest) := by
                cases st <;> simp [dehyphGo, hw]
              rw [harm, ih h .outside]
          · simp [dehyphGo, hy, ih (noHB_tail _ _ h)]
        · simp [dehyphGo, hx, ih (noHB_tail _ _ h)]

theorem noHB_cons_nl (l : List Char) (h : noHB l = true) : noHB ('\n' :: l) = true := by
  cases l with
  | nil => rfl
  | cons y ys =>
    cases ys with
    | nil => simpa [noHB] using h
    | cons c rest => simpa [noHB] using h

theorem noHB_append_nl2 (u v : List Char) (hu : '\n' ∉ u)
    (hv : noHB ('\n' :: '\n' :: v) = true) :
    noHB (u ++ '\n' :: '\n' :: v) = true := by
  induction u with
  | nil => simpa using hv
  | cons x u' ih =>
    have hih := ih (fun hm => hu (List.mem_cons_of_mem x hm))
    rw [List.cons_append]
    cases hu' : u' with
    | nil =>
      subst hu'
      by_cases hx : x = '-'
      · subst hx
        have hwnl : isWordChar '\n' = false := by decide
        simpa [noHB, hwnl] using hv
      · simp only [List.nil_append] at hih ⊢
        cases v with
        | nil => simpa [noHB, hx] using hih
        | cons z zs => simpa [noHB, hx] using hih
    | cons y u'' =>
      have hy : y ≠ '\n' := by
        intro hy
        exact hu (by rw [hu', hy]; exact List.mem_cons_of_mem x (List.mem_cons_self _ _))
      rw [hu'] at hih
      by_cases hx : x = '-'
      · subst hx
        simpa [noHB, hy] using hih
      · simpa [noHB, hx] using hih

theorem noHB_of_no_nl (u : List Char) (hu : '\n' ∉ u) : noHB u = true := by
  induction u with
  | nil => rfl
  | cons x u' ih =>
    have hih := ih (fun hm => hu (List.mem_cons_of_mem x hm))
    cases hu' : u' with
    | nil => simp [noHB]
    | cons y u'' =>
      have hy : y ≠ '\n' := by
        intro hy
        exact hu (by rw [hu', hy]; exact List.mem_cons_of_mem x (List.mem_cons_self _ _))
      rw [hu'] at hih
      cases u'' with
      | nil => simpa [noHB, hy] using hih
      | cons z zs => simpa [noHB, hy] using hih

theorem noHB_joinWith (us : List (List Char)) (h : ∀ u ∈ us, '\n' ∉ u) :
    noHB (joinWith nl2 us) = true := by
  induction us with
  | nil => rfl
  | cons u us ih =>
    cases us with
    | nil => exact noHB_of_no_nl u (h u (List.mem_cons_self u []))
    | cons v vs =>
      rw [joinWith_cons nl2 u (v :: vs) (by simp), List.append_assoc]
      refine noHB_append_nl2 u _ (h u (List.mem_cons_self u _)) ?_
      refine noHB_cons_nl _ (noHB_cons_nl _ ?_)
      exact ih (fun w hw => h w (List.mem_cons_of_mem u hw))

theorem sub2Go_pass (u : List Char) (hu : '\n' ∉ u) (v : List Char) :
    sub2Go none (u ++ v) = u ++ sub2Go none v := by
  induction u with
  | nil => rfl
  | cons c u' ih =>
    have hc : c ≠ '\n' := fun h => hu (by rw [h]; exact List.mem_cons_self _ _)
    rw [List.cons_append]
    rw [show sub2Go none (c :: (u' ++ v)) = c :: sub2Go none (u' ++ v) by
      simp [sub2Go, hc]]
    rw [ih (fun hm => hu (List.mem_cons_of_mem c hm))]
    rfl

theorem sub2Go_consume (u : List Char) :
    '\n' ∉ u → hasNonWs u → ∀ (v : List Char) (b : Bool) (p : List Char),
    sub2Go (some (b, p)) (u ++ v) =
      sub2Resolve b (p ++ u.takeWhile isPySpace) ++
        sub2Go none (u.dropWhile isPySpace ++ v) := by
  induction u with
  | nil =>
    rintro _ ⟨c, hc, _⟩
    exact absurd hc (List.not_mem_nil c)
  | cons x u' ih =>
    intro hu hnw v b p
    have hx : x ≠ '\n' := fun h => hu (by rw [h]; exact List.mem_cons_self _ _)
    by_cases hws : isPySpace x = true
    · have hnw' : hasNonWs u' := by
        rcases hnw with ⟨c, hc, hcw⟩
        rcases List.mem_cons.mp hc with rfl | hc'
        · rw [hws] at hcw; exact absurd hcw (by simp)
        · exact ⟨c, hc', hcw⟩
      rw [List.cons_append]
      rw [show sub2Go (some (b, p)) (x :: (u' ++ v)) =
          sub2Go (some (b, p ++ [x])) (u' ++ v) by
        simp [sub2Go, hx, hws]]
      rw [ih (fun hm => hu (List.mem_cons_of_mem x hm)) hnw' v b (p ++ [x])]
      rw [List.takeWhile_cons_of_pos hws, List.dropWhile_cons_of_pos hws]
      simp
    · rw [List.cons_append]
      rw [show sub2Go (some (b, p)) (x :: (u' ++ v)) =
          sub2Resolve b p ++ x :: sub2Go none (u' ++ v) by
        simp [sub2Go, hx, hws]]
      rw [List.takeWhile_cons_of_neg (by simpa using hws),
        List.dropWhile_cons_of_neg (by simpa using hws)]
      rw [List.cons_append]
      rw [show sub2Go none (x :: (u' ++ v)) = x :: sub2Go none (u' ++ v) by
        simp [sub2Go, hx]]
      simp

theorem sub2Go_pass_nil (u : List Char) (hu : '\n' ∉ u) : sub2Go none u = u := by
  have h := sub2Go_pass u hu []
  rw [List.append_nil] at h
  rw [h, show sub2Go none [] = [] from rfl, List.append_nil]

theorem sub2Go_consume_nil (u : List Char) (hnl : '\n' ∉ u) (hnw : hasNonWs u)
    (b : Bool) (p : List Char) :
    sub2Go (some (b, p)) u =
      sub2Resolve b (p ++ u.takeWhile isPySpace) ++ u.dropWhile isPySpace := by
  have h := sub2Go_consume u hnl hnw [] b p
  rw [List.append_nil, List.append_nil] at h
  rw [h, sub2Go_pass_nil _ (fun hm => hnl ((List.dropWhile_sublist _).subset hm))]

theorem sub2Go_block (us : List (List Char)) :
    us ≠ [] → (∀ u ∈ us, '\n' ∉ u ∧ hasNonWs u) →
    sub2Go (some (true, [])) (joinWith nl2 us) = plChars ++ joinWith plChars us := by
  induction us with
  | nil => intro h _; exact absurd rfl h
  | cons u us ih =>
    intro _ hseg
    rcases hseg u (List.mem_cons_self u us) with ⟨hnl, hnw⟩
    cases us with
    | nil =>
      show sub2Go (some (true, [])) u = plChars ++ u
      rw [sub2Go_consume_nil u hnl hnw true []]
      show plChars ++ ([] ++ u.takeWhile isPySpace) ++ u.dropWhile isPySpace = _
      rw [List.nil_append, List.append_assoc, List.takeWhile_append_dropWhile]
    | cons w ws =>
      rw [joinWith_cons nl2 u (w :: ws) (by simp), List.append_assoc]
      rw [sub2Go_consume u hnl hnw _ true []]
      rw [show nl2 ++ joinWith nl2 (w :: ws) = '\n' :: '\n' :: joinWith nl2 (w :: ws) from rfl]
      rw [sub2Go_pass _ (fun hm => hnl ((List.dropWhile_sublist _).subset hm))]
      rw [show sub2Go none ('\n' :: '\n' :: joinWith nl2 (w :: ws)) =
          sub2Go (some (true, [])) (joinWith nl2 (w :: ws)) by simp [sub2Go]]
      rw [ih (by simp) (fun x hx => hseg x (List.mem_cons_of_mem u hx))]
      rw [joinWith_cons plChars u (w :: ws) (by simp)]
      show plChars ++ ([] ++ u.takeWhile isPySpace) ++
          (u.dropWhile isPySpace ++ (plChars ++ joinWith plChars (w :: ws))) = _
      simp only [List.nil_append, List.append_assoc]
      rw [← List.append_assoc (u.takeWhile isPySpace), List.takeWhile_append_dropWhile]

theorem sub2Go_join (us : List (List Char))
    (hnl : ∀ u ∈ us, '\n' ∉ u) (hnw : ∀ u ∈ us.tail, hasNonWs u) :
    sub2Go none (joinWith nl2 us) = joinWith plChars us := by
  cases us with
  | nil => rfl
  | cons u us =>
    cases us with
    | nil =>
      show sub2Go none u = u
      exact sub2Go_pass_nil u (hnl u (List.mem_cons_self _ _))
    | cons w ws =>
      rw [joinWith_cons nl2 u (w :: ws) (by simp), List.append_assoc]
      rw [sub2Go_pass u (hnl u (List.mem_cons_self _ _))]
      rw [show nl2 ++ joinWith nl2 (w :: ws) = '\n' :: '\n' :: joinWith nl2 (w :: ws) from rfl]
      rw [show sub2Go none ('\n' :: '\n' :: joinWith nl2 (w :: ws)) =
          sub2Go (some (true, [])) (joinWith nl2 (w :: ws)) by simp [sub2Go]]
      rw [sub2Go_block (w :: ws) (by simp)
        (fun x hx => ⟨hnl x (List.mem_cons_of_mem u hx), hnw x (by simpa using hx)⟩)]
      rw [joinWith_cons plChars u (w :: ws) (by simp), List.append_assoc]

theorem nlToSpace_id (l : List Char) (h : '\n' ∉ l) : nlToSpace l = l := by
  induction l with
  | nil => rfl
  | cons c t ih =>
    have hc : c ≠ '\n' := fun hc => h (by rw [hc]; exact List.mem_cons_self _ _)
    simp only [nlToSpace, List.map_cons, if_neg hc]
    rw [show nlToSpace t = List.map (fun c => if c = '\n' then ' ' else c) t from rfl] at ih
    rw [ih (fun hm => h (List.mem_cons_of_mem c hm))]

theorem replacePlGoF_fuel : ∀ f₁ f₂ (l : List Char), l.length ≤ f₁ → l.length ≤ f₂ →
    replacePlGoF f₁ l = replacePlGoF f₂ l := by
  intro f₁
  induction f₁ with
  | zero =>
    intro f₂ l h1 _
    have hl : l = [] := List.eq_nil_of_length_eq_zero (Nat.le_zero.mp h1)
    subst hl
    cases f₂ <;> rfl
  | succ f ih =>
    intro f₂ l h1 h2
    cases f₂ with
    | zero =>
      have hl : l = [] := List.eq_nil_of_length_eq_zero (Nat.le_zero.mp h2)
      subst hl
      rfl
    | succ g =>
      cases l with
      | nil => rfl
      | cons c rest =>
        rw [replacePlGoF, replacePlGoF]
        by_cases hp : plChars.isPrefixOf (c :: rest) = true
        · rw [if_pos hp, if_pos hp]
          have hd1 : (rest.drop 12).length ≤ f := by
            rw [List.length_drop]
            simp only [List.length_cons] at h1
            omega
          have hd2 : (rest.drop 12).length ≤ g := by
            rw [List.length_drop]
            simp only [List.length_cons] at h2
            omega
          rw [ih g _ hd1 hd2]
        · rw [if_neg hp, if_neg hp]
          have hr1 : rest.length ≤ f := by
            simp only [List.length_cons] at h1
            omega
          have hr2 : rest.length ≤ g := by
            simp only [List.length_cons] at h2
            omega
          rw [ih g rest hr1 hr2]

theorem replacePlGo_cons_of_neg (c : Char) (rest : List Char)
    (h : ¬ plChars.isPrefixOf (c :: rest) = true) :
    replacePlGo (c :: rest) = c :: replacePlGo rest := by
  show replacePlGoF (rest.length + 1) (c :: rest) = _
  rw [replacePlGoF, if_neg h]
  rfl

theorem isPrefixOf_append_self (a b : List Char) : a.isPrefixOf (a ++ b) = true := by
  rw [List.isPrefixOf_iff_prefix]
  exact List.prefix_append a b

theorem replacePlGo_pl (w : List Char) :
    replacePlGo (plChars ++ w) = '\n' :: '\n' :: replacePlGo w := by
  show replacePlGoF ((plChars ++ w).length) (plChars ++ w) = _
  have hlen : (plChars ++ w).length = (w.length + 12) + 1 := by
    simp [plChars]
  rw [hlen]
  rw [show plChars ++ w = '|' :: (plChars.tail ++ w) from rfl]
  rw [replacePlGoF, if_pos (by
    rw [show ('|' :: (plChars.tail ++ w)) = plChars ++ w from rfl]
    exact isPrefixOf_append_self plChars w)]
  have hdrop : (plChars.tail ++ w).drop 12 = w := by
    rw [show (12 : Nat) = plChars.tail.length from rfl]
    exact List.drop_left _ _
  rw [hdrop, replacePlGoF_fuel (w.length + 12) w.length w (by omega) (Nat.le_refl _)]
  rfl

theorem not_prefixOf_two (x y : Char) (t : List Char) (hy : y ≠ '|') :
    ¬ plChars.isPrefixOf (x :: y :: t) = true := by
  intro hp
  rw [List.isPrefixOf_iff_prefix] at hp
  rcases hp with ⟨s, hs⟩
  rw [show plChars = '|' :: '|' :: ('P' :: 'A' :: 'R' :: 'A' :: 'G' :: 'R' :: 'A' :: 'P' :: 'H' :: '|' :: '|' :: []) from rfl] at hs
  simp only [List.cons_append, List.cons.injEq] at hs
  exact hy hs.2.1.symm

theorem not_prefixOf_one (x : Char) (t : List Char) (hx : x ≠ '|') :
    ¬ plChars.isPrefixOf (x :: t) = true := by
  intro hp
  rw [List.isPrefixOf_iff_prefix] at hp
  rcases hp with ⟨s, hs⟩
  rw [show plChars = '|' :: ('|' :: 'P' :: 'A' :: 'R' :: 'A' :: 'G' :: 'R' :: 'A' :: 'P' :: 'H' :: '|' :: '|' :: []) from rfl] at hs
  simp only [List.cons_append, List.cons.injEq] at hs
  exact hx hs.1.symm

theorem not_prefixOf_three (x y z : Char) (t : List Char) (hz : z ≠ 'P') :
    ¬ plChars.isPrefixOf (x :: y :: z :: t) = true := by
  intro hp
  rw [List.isPrefixOf_iff_prefix] at hp
  rcases hp with ⟨s, hs⟩
  rw [show plChars = '|' :: '|' :: 'P' :: ('A' :: 'R' :: 'A' :: 'G' :: 'R' :: 'A' :: 'P' :: 'H' :: '|' :: '|' :: []) from rfl] at hs
  simp only [List.cons_append, List.cons.injEq] at hs
  exact hz hs.2.2.1.symm

theorem replacePlGo_id_of_noDP (u : List Char) (h : noPair '|' '|' u = true) :
    replacePlGo u = u := by
  induction u with
  | nil => rfl
  | cons x u' ih =>
    cases u' with
    | nil =>
      by_cases hx : x = '|'
      · subst hx; decide
      · rw [replacePlGo_cons_of_neg x [] (not_prefixOf_one x [] hx)]
        rfl
    | cons y u'' =>
      by_cases hx : x = '|'
      · subst hx
        by_cases hy : y = '|'
        · exact absurd ((noPair_cons_iff _ _ _ _).mp h).1 (by simp [hy])
        · rw [replacePlGo_cons_of_neg _ _ (not_prefixOf_two _ _ _ hy),
            ih (noPair_tail _ _ _ _ h)]
      · rw [replacePlGo_cons_of_neg _ _ (not_prefixOf_one _ _ hx),
          ih (noPair_tail _ _ _ _ h)]

theorem replacePlGo_append_safe (u : List Char) (h : noPair '|' '|' u = true) (w : List Char) :
    replacePlGo (u ++ plChars ++ w) = u ++ replacePlGo (plChars ++ w) := by
  induction u with
  | nil => rfl
  | cons x u' ih =>
    cases u' with
    | nil =>
      by_cases hx : x = '|'
      · subst hx
        show replacePlGo ('|' :: '|' :: '|' :: ('P' :: 'A' :: 'R' :: 'A' :: 'G' :: 'R' :: 'A' ::
            'P' :: 'H' :: '|' :: '|' :: w)) = _
        rw [replacePlGo_cons_of_neg _ _ (not_prefixOf_three _ _ _ _ (by decide))]
        rfl
      · simp only [List.cons_append, List.nil_append]
        rw [replacePlGo_cons_of_neg x _ (not_prefixOf_one x _ hx)]
    | cons y u'' =>
      by_cases hx : x = '|'
      · subst hx
        by_cases hy : y = '|'
        · exact absurd ((noPair_cons_iff _ _ _ _).mp h).1 (by simp [hy])
        · simp only [List.cons_append]
          rw [replacePlGo_cons_of_neg _ _ (not_prefixOf_two _ _ _ hy)]
          rw [show (y :: u'') ++ plChars ++ w = y :: (u'' ++ plChars ++ w) by simp] at ih
          rw [ih (noPair_tail _ _ _ _ h)]
          simp
      · simp only [List.cons_append]
        rw [replacePlGo_cons_of_neg _ _ (not_prefixOf_one _ _ hx)]
        rw [show (y :: u'') ++ plChars ++ w = y :: (u'' ++ plChars ++ w) by simp] at ih
        rw [ih (noPair_tail _ _ _ _ h)]
        simp

theorem replacePlGo_join (us : List (List Char))
    (h : ∀ u ∈ us, noPair '|' '|' u = true) :
    replacePlGo (joinWith plChars us) = joinWith nl2 us := by
  induction us with
  | nil => rfl
  | cons u us ih =>
    cases us with
    | nil => exact replacePlGo_id_of_noDP u (h u (List.mem_cons_self _ _))
    | cons w ws =>
      rw [joinWith_cons plChars u (w :: ws) (by simp),
        List.append_assoc, ← List.append_assoc u,
        replacePlGo_append_safe u (h u (List.mem_cons_self _ _)),
        replacePlGo_pl, ih (fun x hx => h x (List.mem_cons_of_mem u hx)),
        joinWith_cons nl2 u (w :: ws) (by simp)]
      simp [nl2]

theorem collapseGo_true_eq_false (y : Char) (ys : List Char) (hy : isSpaceTab y = false) :
    collapseGo true (y :: ys) = collapseGo false (y :: ys) := by
  simp [collapseGo, hy]

theorem collapseGo_id (l : List Char) :
    '\t' ∉ l → noPair ' ' ' ' l = true → collapseGo false l = l := by
  induction l with
  | nil => intro _ _; rfl
  | cons x xs ih =>
    intro htab hds
    by_cases hsp : x = ' '
    · subst hsp
      rw [show collapseGo false (' ' :: xs) = ' ' :: collapseGo true xs by
        simp [collapseGo, isSpaceTab]]
      cases xs with
      | nil => rfl
      | cons y ys =>
        have hy1 : y ≠ ' ' := by
          intro hy
          exact ((noPair_cons_iff _ _ _ _).mp hds).1 (by simp [hy])
        have hy2 : y ≠ '\t' := by
          intro hy
          exact htab (by rw [hy] at *; exact List.mem_cons_of_mem _ (List.mem_cons_self _ _))
        have hyst : isSpaceTab y = false := by simp [isSpaceTab, hy1, hy2]
        rw [collapseGo_true_eq_false y ys hyst]
        rw [ih (fun hm => htab (List.mem_cons_of_mem _ hm)) (noPair_tail _ _ _ _ hds)]
    · have hxt : x ≠ '\t' := fun hx => htab (by rw [hx]; exact List.mem_cons_self _ _)
      have hxst : isSpaceTab x = false := by simp [isSpaceTab, hsp, hxt]
      rw [show collapseGo false (x :: xs) = x :: collapseGo false xs by
        simp [collapseGo, hxst]]
      rw [ih (fun hm => htab (List.mem_cons_of_mem _ hm)) (noPair_tail _ _ _ _ hds)]

theorem pyStripChars_id (l : List Char)
    (hh : ∀ c, l.head? = some c → isPySpace c = false)
    (hl : ∀ c, l.getLast? = some c → isPySpace c = false) :
    pyStripChars l = l := by
  unfold pyStripChars
  have h1 : l.dropWhile isPySpace = l := by
    cases hc : l with
    | nil => rfl
    | cons c t =>
      rw [List.dropWhile_cons_of_neg]
      rw [hh c (by rw [hc]; rfl)]
      simp
  rw [h1]
  have h2 : l.reverse.dropWhile isPySpace = l.reverse := by
    cases hc : l.reverse with
    | nil => rfl
    | cons c t =>
      rw [List.dropWhile_cons_of_neg]
      have : l.getLast? = some c := by
        rw [← List.head?_reverse, hc]; rfl
      rw [hl c this]
      simp
  rw [h2, List.reverse_reverse]

theorem noPair_joinWith_nl2 (a b : Char) (ha : a ≠ '\n') (hb : b ≠ '\n')
    (us : List (List Char)) (h : ∀ u ∈ us, noPair a b u = true) :
    noPair a b (joinWith nl2 us) = true := by
  induction us with
  | nil => rfl
  | cons u us ih =>
    cases us with
    | nil => exact h u (List.mem_cons_self _ _)
    | cons w ws =>
      rw [joinWith_cons nl2 u (w :: ws) (by simp), List.append_assoc]
      refine noPair_append_intro a b u _ (h u (List.mem_cons_self _ _)) ?_ ?_
      · rw [show nl2 ++ joinWith nl2 (w :: ws) =
          '\n' :: '\n' :: joinWith nl2 (w :: ws) from rfl]
        rw [noPair_cons_iff]
        refine ⟨fun hx => ha hx.1.symm, ?_⟩
        rw [noPair_cons_iff]
        exact ⟨fun hx => ha hx.1.symm,
          ih (fun x hx => h x (List.mem_cons_of_mem u hx))⟩
      · rintro ⟨_, hhd⟩
        rw [show nl2 ++ joinWith nl2 (w :: ws) =
          '\n' :: '\n' :: joinWith nl2 (w :: ws) from rfl] at hhd
        simp only [List.head?_cons, Option.some.injEq] at hhd
        exact hb hhd.symm

theorem getLast?_append_right (x y : List Char) (hy : y ≠ []) :
    (x ++ y).getLast? = y.getLast? := by
  rw [← List.head?_reverse, ← List.head?_reverse, List.reverse_append, List.head?_append]
  cases hyr : y.reverse with
  | nil => exact absurd (by simpa using hyr) hy
  | cons c t => rfl

theorem joinWith_getLast? (sep : List Char) (us : List (List Char)) (u : List Char)
    (h : us.getLast? = some u) (hne : u ≠ []) :
    (joinWith sep us).getLast? = u.getLast? := by
  induction us with
  | nil => simp at h
  | cons v vs ih =>
    cases vs with
    | nil =>
      simp only [List.getLast?_singleton, Option.some.injEq] at h
      rw [← h]; rfl
    | cons w ws =>
      rw [List.getLast?_cons_cons] at h
      have hrec := ih h
      have hjne : joinWith sep (w :: ws) ≠ [] := by
        intro hj0
        have hu : u.getLast?.isSome := List.getLast?_isSome.mpr hne
        rw [← hrec, hj0] at hu
        simp at hu
      rw [joinWith_cons sep v (w :: ws) (by simp), List.append_assoc]
      rw [getLast?_append_right v _ (fun h0 => hjne (List.append_eq_nil.mp h0).2)]
      rw [getLast?_append_right sep _ hjne]
      exact hrec

theorem cleanChars_id_of_segsOK (us : List (List Char)) (h : SegsOK us) :
    cleanChars (joinWith nl2 us) = joinWith nl2 us := by
  obtain ⟨hbasic, htail, ⟨u0, c0, t0, hhead, hu0, hc0⟩, ⟨uL, cL, hlastSeg, hulast, hcL⟩⟩ := h
  have hnl : ∀ u ∈ us, '\n' ∉ u := fun u hu => (hbasic u hu).1
  have hnoDP : ∀ u ∈ us, noPair '|' '|' u = true := fun u hu => (hbasic u hu).2.2.2
  unfold cleanChars
  rw [dehyphGo_id _ (noHB_joinWith us hnl) .outside]
  rw [sub2Go_join us hnl htail]
  rw [nlToSpace_id _ (fun hm => by
    rcases mem_joinWith plChars us '\n' hm with hpl | ⟨u, hu, hc⟩
    · exact absurd hpl (by decide)
    · exact hnl u hu hc)]
  rw [replacePlGo_join us hnoDP]
  rw [collapseGo_id _ (fun hm => by
      rcases mem_joinWith nl2 us '\t' hm with hsep | ⟨u, hu, hc⟩
      · exact absurd hsep (by decide)
      · exact (hbasic u hu).2.1 hc)
    (noPair_joinWith_nl2 ' ' ' ' (by decide) (by decide) us
      (fun u hu => (hbasic u hu).2.2.1))]
  apply pyStripChars_id
  · intro c hc
    cases us with
    | nil => simp at hhead
    | cons v vs =>
      simp only [List.head?_cons, Option.some.injEq] at hhead
      rw [hu0] at hhead
      subst hhead
      have hjh : (joinWith nl2 ((c0 :: t0) :: vs)).head? = some c0 := by
        cases vs with
        | nil => rfl
        | cons w ws =>
          rw [joinWith_cons nl2 _ (w :: ws) (by simp)]
          rfl
      rw [hjh] at hc
      injection hc with hc
      rw [← hc]
      exact hc0
  · intro c hc
    rw [joinWith_getLast? nl2 us uL hlastSeg (by
      intro h0
      rw [h0] at hulast
      simp at hulast)] at hc
    rw [hulast] at hc
    injection hc with hc
    rw [← hc]
    exact hcL

theorem cleanChars_id_of_cleanShape (l : List Char) (h : CleanShape l) :
    cleanChars l = l := by
  rcases h with rfl | ⟨us, hok, rfl⟩
  · rfl
  · exact cleanChars_id_of_segsOK us hok

theorem word_ne_pipe (c : Char) (hw : isWordChar c = true) : c ≠ '|' := by
  intro hc
  rw [hc] at hw
  exact absurd hw (by decide)

theorem dehyphGo_head_cases (st : HyphSt) (l : List Char) :
    (dehyphGo st l).head? = l.head? ∨
      ∃ c, (dehyphGo st l).head? = some c ∧ isWordChar c = true := by
  cases l with
  | nil => exact Or.inl rfl
  | cons x xs =>
    cases xs with
    | nil => left; simp [dehyphGo]
    | cons y ys =>
      cases ys with
      | nil =>
        by_cases hy : y = '\n'
        · subst hy
          by_cases hx : x = '-'
          · subst hx; left; simp [dehyphGo]
          · left; simp [dehyphGo, hx]
        · left; simp [dehyphGo, hy]
      | cons c rest =>
        by_cases hx : x = '-'
        · subst hx
          by_cases hy : y = '\n'
          · subst hy
            by_cases hw : isWordChar c
            · cases st with
              | elig => right; exact ⟨c, by simp [dehyphGo, hw], hw⟩
              | outside => left; simp [dehyphGo]
              | inelig => left; simp [dehyphGo]
            · left
              cases st <;> simp [dehyphGo, hw]
          · left; simp [dehyphGo, hy]
        · left; simp [dehyphGo, hx]

theorem dehyphGo_noPair : ∀ n (l : List Char), l.length ≤ n →
    noPair '|' '|' l = true → ∀ st, noPair '|' '|' (dehyphGo st l) = true := by
  intro n
  induction n with
  | zero =>
    intro l hl _ st
    have : l = [] := List.eq_nil_of_length_eq_zero (Nat.le_zero.mp hl)
    subst this
    rfl
  | succ n ih =>
    intro l hl h st
    cases l with
    | nil => rfl
    | cons x xs =>
      cases xs with
      | nil => simp [dehyphGo, noPair]
      | cons y ys =>
        have hxlen : (y :: ys).length ≤ n := by
          simp only [List.length_cons] at hl ⊢
          omega
        have hgen : ∀ st', noPair '|' '|' (x :: dehyphGo st' (y :: ys)) = true := by
          intro st'
          rw [noPair_cons_iff]
          refine ⟨?_, ih (y :: ys) hxlen (noPair_tail _ _ _ _ h) st'⟩
          rintro ⟨hx, hhd⟩
          rcases dehyphGo_head_cases st' (y :: ys) with hcase | ⟨c, hc, hw⟩
          · rw [hcase] at hhd
            simp only [List.head?_cons, Option.some.injEq] at hhd
            exact ((noPair_cons_iff _ _ _ _).mp h).1 ⟨hx, by simp [hhd]⟩
          · rw [hc] at hhd
            injection hhd with hhd
            exact word_ne_pipe c hw hhd
        cases ys with
        | nil =>
          by_cases hy : y = '\n'
          · subst hy
            by_cases hx : x = '-'
            · subst hx
              rw [show dehyphGo st ['-', '\n'] = '-' :: dehyphGo (nextHyphSt st '-') ['\n'] by
                simp [dehyphGo]]
              exact hgen _
            · rw [show dehyphGo st [x, '\n'] = x :: dehyphGo (nextHyphSt st x) ['\n'] by
                simp [dehyphGo, hx]]
              exact hgen _
          · rw [show dehyphGo st [x, y] = x :: dehyphGo (nextHyphSt st x) [y] by
              simp [dehyphGo, hy]]
            exact hgen _
        | cons c rest =>
          by_cases hx : x = '-'
          · subst hx
            by_cases hy : y = '\n'
            · subst hy
              by_cases hw : isWordChar c
              · cases st with
                | elig =>
                  rw [show dehyphGo .elig ('-' :: '\n' :: c :: rest) =
                      c :: dehyphGo .inelig rest by simp [dehyphGo, hw]]
                  rw [noPair_cons_iff]
                  have hrlen : rest.length ≤ n := by
                    simp only [List.length_cons] at hl
                    omega
                  have hrest : noPair '|' '|' rest = true :=
                    noPair_tail _ _ _ _ (noPair_tail _ _ _ _ (noPair_tail _ _ _ _ h))
                  refine ⟨?_, ih rest hrlen hrest .inelig⟩
                  rintro ⟨hc, _⟩
                  exact word_ne_pipe c hw hc
                | outside =>
                  rw [show dehyphGo .outside ('-' :: '\n' :: c :: rest) =
                      '-' :: dehyphGo .outside ('\n' :: c :: rest) by simp [dehyphGo]]
                  exact hgen _
                | inelig =>
                  rw [show dehyphGo .inelig ('-' :: '\n' :: c :: rest) =
                      '-' :: dehyphGo .outside ('\n' :: c :: rest) by simp [dehyphGo]]
                  exact hgen _
              · have harm : dehyphGo st ('-' :: '\n' :: c :: rest) =
                    '-' :: dehyphGo .outside ('\n' :: c :: rest) := by
                  cases st <;> simp [dehyphGo, hw]
                rw [harm]
                exact hgen _
            · rw [show dehyphGo st ('-' :: y :: c :: rest) =
                '-' :: dehyphGo (nextHyphSt st '-') (y :: c :: rest) by simp [dehyphGo, hy]]
              exact hgen _
          · rw [show dehyphGo st (x :: y :: c :: rest) =
              x :: dehyphGo (nextHyphSt st x) (y :: c :: rest) by simp [dehyphGo, hx]]
            exact hgen _

theorem ws_ne_pipe (c : Char) (h : isPySpace c = true) : c ≠ '|' := by
  intro hc
  rw [hc] at h
  exact absurd h (by decide)

theorem joinWith_head_prepend (sep X h : List Char) (t : List (List Char)) :
    joinWith sep ((X ++ h) :: t) = X ++ joinWith sep (h :: t) := by
  cases t with
  | nil => rfl
  | cons a t' =>
    rw [joinWith_cons sep (X ++ h) (a :: t') (by simp),
      joinWith_cons sep h (a :: t') (by simp)]
    simp [List.append_assoc]

theorem sub2Go_spec : ∀ n (l : List Char), l.length ≤ n →
    ∀ (st : Option (Bool × List Char)),
    (∀ b p, st = some (b, p) → ∀ c ∈ p, isPySpace c = true ∧ c ≠ '\n') →
    ∃ vs : List (List Char),
      sub2Go st l = joinWith plChars vs ∧
      (∀ v ∈ vs.tail.dropLast, hasNonWs v) ∧
      (noPair '|' '|' l = true → ∀ v ∈ vs, noPair '|' '|' v = true) ∧
      ∃ h t, vs = h :: t ∧
        (h = [] ∨ h.head? = some '\n' ∨ (st = none ∧ h.head? = l.head?)) := by
  intro n
  induction n with
  | zero =>
    intro l hl st hpend
    have hnil : l = [] := List.eq_nil_of_length_eq_zero (Nat.le_zero.mp hl)
    subst hnil
    cases st with
    | none => exact ⟨[[]], rfl, by simp, by intro _ v hv; rcases List.mem_singleton.mp hv with rfl; rfl,
        [], [], rfl, Or.inl rfl⟩
    | some bp =>
      obtain ⟨b, p⟩ := bp
      have hp := hpend b p rfl
      cases b with
      | false =>
        refine ⟨['\n' :: p], rfl, by simp, ?_, '\n' :: p, [], rfl, Or.inr (Or.inl rfl)⟩
        intro _ v hv
        rcases List.mem_singleton.mp hv with rfl
        refine noPair_of_all_ne _ _ _ ?_
        intro x hx
        rcases List.mem_cons.mp hx with rfl | hx'
        · decide
        · exact ws_ne_pipe x (hp x hx').1
      | true =>
        refine ⟨[[], p], ?_, by simp, ?_, [], [p], rfl, Or.inl rfl⟩
        · show sub2Resolve true p = joinWith plChars [[], p]
          rw [show joinWith plChars [[], p] = [] ++ plChars ++ p from rfl]
          simp [sub2Resolve]
        · intro _ v hv
          rcases List.mem_cons.mp hv with rfl | hv'
          · rfl
          · rcases List.mem_singleton.mp hv' with rfl
            exact noPair_of_all_ne _ _ _ (fun x hx => ws_ne_pipe x (hp x hx).1)
  | succ n ih =>
    intro l hl st hpend
    cases l with
    | nil =>
      exact ih [] (by simp) st hpend
    | cons c rest =>
      have hrlen : rest.length ≤ n := by
        simp only [List.length_cons] at hl
        omega
      cases st with
      | none =>
        by_cases hc : c = '\n'
        · subst hc
          rw [show sub2Go none ('\n' :: rest) = sub2Go (some (false, [])) rest by
            simp [sub2Go]]
          obtain ⟨vs, hjoin, hmid, hnp, h, t, hvs, hhead⟩ :=
            ih rest hrlen (some (false, [])) (by rintro b p ⟨rfl, rfl⟩ c hc; simp at hc)
          refine ⟨vs, hjoin, hmid, fun hl' => hnp (noPair_tail _ _ _ _ hl'), h, t, hvs, ?_⟩
          rcases hhead with h1 | h1 | ⟨h1, _⟩
          · exact Or.inl h1
          · exact Or.inr (Or.inl h1)
          · exact absurd h1 (by simp)
        · rw [show sub2Go none (c :: rest) = c :: sub2Go none rest by simp [sub2Go, hc]]
          obtain ⟨vs, hjoin, hmid, hnp, h, t, hvs, hhead⟩ :=
            ih rest hrlen none (by rintro b p ⟨⟩)
          subst hvs
          refine ⟨(c :: h) :: t, ?_, ?_, ?_, c :: h, t, rfl,
            Or.inr (Or.inr ⟨rfl, by simp⟩)⟩
          · rw [hjoin, show (c :: h) = [c] ++ h from rfl, joinWith_head_prepend]
            rfl
          · simpa using hmid
          · intro hl' v hv
            rcases List.mem_cons.mp hv with rfl | hv'
            · rw [noPair_cons_iff]
              refine ⟨?_, hnp (noPair_tail _ _ _ _ hl') h (List.mem_cons_self _ _)⟩
              rintro ⟨hcp, hhd⟩
              rcases hhead with h1 | h1 | ⟨_, h1⟩
              · subst h1; simp at hhd
              · rw [h1] at hhd
                injection hhd with hhd
                exact absurd hhd.symm (by decide)
              · rw [h1] at hhd
                exact ((noPair_cons_iff _ _ _ _).mp hl').1 ⟨hcp, hhd⟩
            · exact hnp (noPair_tail _ _ _ _ hl') v (List.mem_cons_of_mem _ hv')
      | some bp =>
        obtain ⟨b, p⟩ := bp
        have hp := hpend b p rfl
        by_cases hc : c = '\n'
        · subst hc
          rw [show sub2Go (some (b, p)) ('\n' :: rest) = sub2Go (some (true, [])) rest by
            simp [sub2Go]]
          obtain ⟨vs, hjoin, hmid, hnp, h, t, hvs, hhead⟩ :=
            ih rest hrlen (some (true, [])) (by rintro b' p' ⟨rfl, rfl⟩ c hc; simp at hc)
          refine ⟨vs, hjoin, hmid, fun hl' => hnp (noPair_tail _ _ _ _ hl'), h, t, hvs, ?_⟩
          rcases hhead with h1 | h1 | ⟨h1, _⟩
          · exact Or.inl h1
          · exact Or.inr (Or.inl h1)
          · exact absurd h1 (by simp)
        · by_cases hws : isPySpace c = true
          · rw [show sub2Go (some (b, p)) (c :: rest) = sub2Go (some (b, p ++ [c])) rest by
              simp [sub2Go, hc, hws]]
            obtain ⟨vs, hjoin, hmid, hnp, h, t, hvs, hhead⟩ :=
              ih rest hrlen (some (b, p ++ [c])) (by
                rintro b' p' heq x hx
                injection heq with heq
                injection heq with heq1 heq2
                subst heq2
                rcases List.mem_append.mp hx with hx' | hx'
                · exact hp x hx'
                · rcases List.mem_singleton.mp hx' with rfl
                  exact ⟨hws, hc⟩)
            refine ⟨vs, hjoin, hmid, fun hl' => hnp (noPair_tail _ _ _ _ hl'), h, t, hvs, ?_⟩
            rcases hhead with h1 | h1 | ⟨h1, _⟩
            · exact Or.inl h1
            · exact Or.inr (Or.inl h1)
            · exact absurd h1 (by simp)
          · rw [show sub2Go (some (b, p)) (c :: rest) =
                sub2Resolve b p ++ c :: sub2Go none rest by simp [sub2Go, hc, hws]]
            obtain ⟨vs, hjoin, hmid, hnp, h, t, hvs, hhead⟩ :=
              ih rest hrlen none (by rintro b' p' ⟨⟩)
            subst hvs
            have hsegNP : noPair '|' '|' (c :: rest) = true →
                noPair '|' '|' (c :: h) = true := by
              intro hl'
              rw [noPair_cons_iff]
              refine ⟨?_, hnp (noPair_tail _ _ _ _ hl') h (List.mem_cons_self _ _)⟩
              rintro ⟨hcp, hhd⟩
              rcases hhead with h1 | h1 | ⟨_, h1⟩
              · subst h1; simp at hhd
              · rw [h1] at hhd
                injection hhd with hhd
                exact absurd hhd.symm (by decide)
              · rw [h1] at hhd
                exact ((noPair_cons_iff _ _ _ _).mp hl').1 ⟨hcp, hhd⟩
            cases b with
            | false =>
              refine ⟨(('\n' :: p) ++ c :: h) :: t, ?_, ?_, ?_,
                ('\n' :: p) ++ c :: h, t, rfl, Or.inr (Or.inl (by simp))⟩
              · rw [hjoin, show ('\n' :: p) ++ c :: h = (('\n' :: p) ++ [c]) ++ h by simp,
                  joinWith_head_prepend]
                simp [sub2Resolve]
              · simpa using hmid
              · intro hl' v hv
                rcases List.mem_cons.mp hv with rfl | hv'
                · refine noPair_append_left_safe _ _ _ _ ?_ (hsegNP hl')
                  intro x hx
                  rcases List.mem_cons.mp hx with rfl | hx'
                  · decide
                  · exact ws_ne_pipe x (hp x hx').1
                · exact hnp (noPair_tail _ _ _ _ hl') v (List.mem_cons_of_mem _ hv')
            | true =>
              refine ⟨[] :: (p ++ c :: h) :: t, ?_, ?_, ?_, [], (p ++ c :: h) :: t, rfl,
                Or.inl rfl⟩
              · rw [hjoin, joinWith_cons plChars [] ((p ++ c :: h) :: t) (by simp),
                  show p ++ c :: h = (p ++ [c]) ++ h by simp, joinWith_head_prepend]
                simp [sub2Resolve]
              · intro v hv
                simp only [List.tail_cons] at hv
                cases t with
                | nil => simp at hv
                | cons a t' =>
                  rw [List.dropLast_cons_of_ne_nil (by simp)] at hv
                  rcases List.mem_cons.mp hv with rfl | hv'
                  · exact ⟨c, by simp, by simpa using hws⟩
                  · exact hmid v (by simpa using hv')
              · intro hl' v hv
                rcases List.mem_cons.mp hv with rfl | hv'
                · rfl
                · rcases List.mem_cons.mp hv' with rfl | hv''
                  · refine noPair_append_left_safe _ _ _ _ ?_ (hsegNP hl')
                    intro x hx
                    exact ws_ne_pipe x (hp x hx).1
                  · exact hnp (noPair_tail _ _ _ _ hl') v (List.mem_cons_of_mem _ hv'')

theorem nlToSpace_joinWith (vs : List (List Char)) :
    nlToSpace (joinWith plChars vs) = joinWith plChars (vs.map nlToSpace) := by
  induction vs with
  | nil => rfl
  | cons u vs ih =>
    cases vs with
    | nil => rfl
    | cons w ws =>
      rw [joinWith_cons plChars u (w :: ws) (by simp),
        show (u :: w :: ws).map nlToSpace = nlToSpace u :: (w :: ws).map nlToSpace from rfl,
        joinWith_cons plChars (nlToSpace u) ((w :: ws).map nlToSpace) (by simp)]
      show List.map _ _ = _
      rw [List.map_append, List.map_append]
      rw [show List.map (fun c => if c = '\n' then ' ' else c) plChars = plChars from rfl]
      rw [← ih]
      rfl

theorem nlToSpace_no_nl (v : List Char) : '\n' ∉ nlToSpace v := by
  intro hm
  rcases List.mem_map.mp hm with ⟨c, _, hc⟩
  by_cases hcn : c = '\n'
  · rw [if_pos hcn] at hc; exact absurd hc (by decide)
  · rw [if_neg hcn] at hc; exact hcn hc

theorem nlToSpace_noPair (v : List Char) (h : noPair '|' '|' v = true) :
    noPair '|' '|' (nlToSpace v) = true := by
  induction v with
  | nil => rfl
  | cons x v' ih =>
    show noPair '|' '|' ((if x = '\n' then ' ' else x) :: nlToSpace v') = true
    rw [noPair_cons_iff]
    refine ⟨?_, ih (noPair_tail _ _ _ _ h)⟩
    rintro ⟨hx, hhd⟩
    have hxp : x = '|' := by
      by_cases hxn : x = '\n'
      · rw [if_pos hxn] at hx; exact absurd hx (by decide)
      · rwa [if_neg hxn] at hx
    rw [show nlToSpace v' = v'.map (fun c => if c = '\n' then ' ' else c) from rfl,
      List.head?_map] at hhd
    cases hv' : v'.head? with
    | none => rw [hv'] at hhd; simp at hhd
    | some y =>
      rw [hv'] at hhd
      have hhd : (if y = '\n' then ' ' else y) = '|' := by simpa using hhd
      have hyp : y = '|' := by
        by_cases hyn : y = '\n'
        · rw [if_pos hyn] at hhd; exact absurd hhd (by decide)
        · rwa [if_neg hyn] at hhd
      exact ((noPair_cons_iff _ _ _ _).mp h).1 ⟨hxp, by rw [hv', hyp]⟩

theorem nlToSpace_hasNonWs (v : List Char) (h : hasNonWs v) : hasNonWs (nlToSpace v) := by
  rcases h with ⟨c, hc, hcw⟩
  have hcn : c ≠ '\n' := by
    intro hcn
    rw [hcn] at hcw
    exact absurd hcw (by decide)
  exact ⟨c, by
    rw [show nlToSpace v = v.map (fun c => if c = '\n' then ' ' else c) from rfl]
    refine List.mem_map.mpr ⟨c, hc, ?_⟩
    rw [if_neg hcn], hcw⟩

theorem spacetab_ws (c : Char) (h : isSpaceTab c = true) : isPySpace c = true := by
  rcases (by simpa [isSpaceTab] using h : c = ' ' ∨ c = '\t') with rfl | rfl <;> decide

theorem collapseGo_state (u : List Char) (b : Bool) (hu : ∀ x, u.head? = some x → isSpaceTab x = false) :
    collapseGo b u = collapseGo false u := by
  cases u with
  | nil => rfl
  | cons y v' =>
    cases b with
    | false => rfl
    | true => exact collapseGo_true_eq_false y v' (hu y rfl)

theorem collapseGo_append (u : List Char) : ∀ (v : List Char) (b : Bool),
    (∀ x, v.head? = some x → isSpaceTab x = false) →
    collapseGo b (u ++ v) = collapseGo b u ++ collapseGo false v := by
  induction u with
  | nil =>
    intro v b hv
    show collapseGo b v = collapseGo b [] ++ collapseGo false v
    rw [show collapseGo b ([] : List Char) = [] by cases b <;> rfl, List.nil_append]
    exact collapseGo_state v b hv
  | cons x u' ih =>
    intro v b hv
    by_cases hst : isSpaceTab x = true
    · cases b with
      | true =>
        rw [List.cons_append,
          show collapseGo true (x :: (u' ++ v)) = collapseGo true (u' ++ v) by
            simp [collapseGo, hst],
          show collapseGo true (x :: u') = collapseGo true u' by simp [collapseGo, hst]]
        exact ih v true hv
      | false =>
        rw [List.cons_append,
          show collapseGo false (x :: (u' ++ v)) = ' ' :: collapseGo true (u' ++ v) by
            simp [collapseGo, hst],
          show collapseGo false (x :: u') = ' ' :: collapseGo true u' by
            simp [collapseGo, hst]]
        rw [ih v true hv]
        rfl
    · rw [List.cons_append,
        show collapseGo b (x :: (u' ++ v)) = x :: collapseGo false (u' ++ v) by
          cases b <;> simp [collapseGo, hst],
        show collapseGo b (x :: u') = x :: collapseGo false u' by
          cases b <;> simp [collapseGo, hst]]
      rw [ih v false hv]
      rfl

theorem collapseGo_joinWith (ws : List (List Char)) :
    collapseGo false (joinWith nl2 ws) = joinWith nl2 (ws.map (collapseGo false)) := by
  induction ws with
  | nil => rfl
  | cons u ws ih =>
    cases ws with
    | nil => rfl
    | cons w ws' =>
      rw [joinWith_cons nl2 u (w :: ws') (by simp), List.append_assoc]
      rw [collapseGo_append u _ false (by
        rintro x hx
        rw [show nl2 ++ joinWith nl2 (w :: ws') = '\n' :: ('\n' :: joinWith nl2 (w :: ws')) from rfl] at hx
        injection hx with hx
        rw [← hx]
        decide)]
      rw [show nl2 ++ joinWith nl2 (w :: ws') = '\n' :: '\n' :: joinWith nl2 (w :: ws') from rfl]
      rw [show collapseGo false ('\n' :: '\n' :: joinWith nl2 (w :: ws')) =
          '\n' :: '\n' :: collapseGo false (joinWith nl2 (w :: ws')) by
        simp [collapseGo, isSpaceTab]]
      rw [ih]
      rw [show (u :: w :: ws').map (collapseGo false) =
        collapseGo false u :: (w :: ws').map (collapseGo false) from rfl]
      rw [joinWith_cons nl2 _ ((w :: ws').map (collapseGo false)) (by simp)]
      simp [nl2]

theorem collapseGo_no_tab (u : List Char) : ∀ b, '\t' ∉ collapseGo b u := by
  induction u with
  | nil => intro b; cases b <;> simp [collapseGo]
  | cons x u' ih =>
    intro b
    by_cases hst : isSpaceTab x = true
    · cases b with
      | true =>
        rw [show collapseGo true (x :: u') = collapseGo true u' by simp [collapseGo, hst]]
        exact ih true
      | false =>
        rw [show collapseGo false (x :: u') = ' ' :: collapseGo true u' by
          simp [collapseGo, hst]]
        intro hm
        rcases List.mem_cons.mp hm with h | h
        · exact absurd h.symm (by decide)
        · exact ih true h
    · rw [show collapseGo b (x :: u') = x :: collapseGo false u' by
        cases b <;> simp [collapseGo, hst]]
      intro hm
      rcases List.mem_cons.mp hm with h | h
      · rw [← h] at hst
        exact hst (by decide)
      · exact ih false h

theorem collapseGo_true_head (u : List Char) (x : Char)
    (h : (collapseGo true u).head? = some x) : isSpaceTab x = false := by
  induction u with
  | nil => simp [collapseGo] at h
  | cons y u' ih =>
    by_cases hst : isSpaceTab y = true
    · rw [show collapseGo true (y :: u') = collapseGo true u' by simp [collapseGo, hst]] at h
      exact ih h
    · rw [show collapseGo true (y :: u') = y :: collapseGo false u' by
        simp [collapseGo, hst]] at h
      injection h with h
      rw [← h]
      simpa using hst

theorem collapseGo_false_head (u : List Char) :
    (collapseGo false u).head? = u.head? ∨ (collapseGo false u).head? = some ' ' := by
  cases u with
  | nil => exact Or.inl rfl
  | cons y u' =>
    by_cases hst : isSpaceTab y = true
    · rw [show collapseGo false (y :: u') = ' ' :: collapseGo true u' by
        simp [collapseGo, hst]]
      exact Or.inr rfl
    · rw [show collapseGo false (y :: u') = y :: collapseGo false u' by
        simp [collapseGo, hst]]
      exact Or.inl rfl

theorem collapseGo_noDS (u : List Char) : ∀ b, noPair ' ' ' ' (collapseGo b u) = true := by
  induction u with
  | nil => intro b; cases b <;> rfl
  | cons x u' ih =>
    intro b
    by_cases hst : isSpaceTab x = true
    · cases b with
      | true =>
        rw [show collapseGo true (x :: u') = collapseGo true u' by simp [collapseGo, hst]]
        exact ih true
      | false =>
        rw [show collapseGo false (x :: u') = ' ' :: collapseGo true u' by
          simp [collapseGo, hst]]
        rw [noPair_cons_iff]
        refine ⟨?_, ih true⟩
        rintro ⟨_, hhd⟩
        have := collapseGo_true_head u' ' ' hhd
        exact absurd this (by decide)
    · rw [show collapseGo b (x :: u') = x :: collapseGo false u' by
        cases b <;> simp [collapseGo, hst]]
      rw [noPair_cons_iff]
      refine ⟨?_, ih false⟩
      rintro ⟨hx, _⟩
      rw [hx] at hst
      exact hst (by decide)

theorem collapseGo_noDP (u : List Char) (h : noPair '|' '|' u = true) :
    ∀ b, noPair '|' '|' (collapseGo b u) = true := by
  induction u with
  | nil => intro b; cases b <;> rfl
  | cons x u' ih =>
    intro b
    by_cases hst : isSpaceTab x = true
    · cases b with
      | true =>
        rw [show collapseGo true (x :: u') = collapseGo true u' by simp [collapseGo, hst]]
        exact ih (noPair_tail _ _ _ _ h) true
      | false =>
        rw [show collapseGo false (x :: u') = ' ' :: collapseGo true u' by
          simp [collapseGo, hst]]
        rw [noPair_cons_iff]
        refine ⟨?_, ih (noPair_tail _ _ _ _ h) true⟩
        rintro ⟨hx, _⟩
        exact absurd hx (by decide)
    · rw [show collapseGo b (x :: u') = x :: collapseGo false u' by
        cases b <;> simp [collapseGo, hst]]
      rw [noPair_cons_iff]
      refine ⟨?_, ih (noPair_tail _ _ _ _ h) false⟩
      rintro ⟨hx, hhd⟩
      rcases collapseGo_false_head u' with hcase | hcase
      · rw [hcase] at hhd
        cases hu' : u'.head? with
        | none => rw [hu'] at hhd; simp at hhd
        | some y =>
          rw [hu'] at hhd
          injection hhd with hhd
          exact ((noPair_cons_iff _ _ _ _).mp h).1 ⟨hx, by rw [hu', hhd]⟩
      · rw [hcase] at hhd
        injection hhd with hhd
        exact absurd hhd.symm (by decide)

theorem collapseGo_no_nl (u : List Char) (h : '\n' ∉ u) : ∀ b, '\n' ∉ collapseGo b u := by
  induction u with
  | nil => intro b; cases b <;> simp [collapseGo]
  | cons x u' ih =>
    intro b
    have hih := ih (fun hm => h (List.mem_cons_of_mem _ hm))
    by_cases hst : isSpaceTab x = true
    · cases b with
      | true =>
        rw [show collapseGo true (x :: u') = collapseGo true u' by simp [collapseGo, hst]]
        exact hih true
      | false =>
        rw [show collapseGo false (x :: u') = ' ' :: collapseGo true u' by
          simp [collapseGo, hst]]
        intro hm
        rcases List.mem_cons.mp hm with hm' | hm'
        · exact absurd hm'.symm (by decide)
        · exact hih true hm'
    · rw [show collapseGo b (x :: u') = x :: collapseGo false u' by
        cases b <;> simp [collapseGo, hst]]
      intro hm
      rcases List.mem_cons.mp hm with hm' | hm'
      · exact h (by rw [hm']; exact List.mem_cons_self _ _)
      · exact hih false hm'

theorem collapseGo_mem_nonst (u : List Char) (c : Char) (hc : isSpaceTab c = false) :
    ∀ b, c ∈ u → c ∈ collapseGo b u := by
  induction u with
  | nil => intro b hm; simp at hm
  | cons x u' ih =>
    intro b hm
    by_cases hst : isSpaceTab x = true
    · have hm' : c ∈ u' := by
        rcases List.mem_cons.mp hm with rfl | hm'
        · rw [hst] at hc; exact absurd hc (by simp)
        · exact hm'
      cases b with
      | true =>
        rw [show collapseGo true (x :: u') = collapseGo true u' by simp [collapseGo, hst]]
        exact ih true hm'
      | false =>
        rw [show collapseGo false (x :: u') = ' ' :: collapseGo true u' by
          simp [collapseGo, hst]]
        exact List.mem_cons_of_mem _ (ih true hm')
    · rw [show collapseGo b (x :: u') = x :: collapseGo false u' by
        cases b <;> simp [collapseGo, hst]]
      rcases List.mem_cons.mp hm with rfl | hm'
      · exact List.mem_cons_self _ _
      · exact List.mem_cons_of_mem _ (ih false hm')

theorem collapseGo_hasNonWs (u : List Char) (h : hasNonWs u) :
    hasNonWs (collapseGo false u) := by
  rcases h with ⟨c, hc, hcw⟩
  have hcst : isSpaceTab c = false := by
    by_cases hst : isSpaceTab c = true
    · rw [spacetab_ws c hst] at hcw; exact absurd hcw (by simp)
    · simpa using hst
  exact ⟨c, collapseGo_mem_nonst u c hcst false hc, hcw⟩

theorem dropWhile_append_of_nonws (p : Char → Bool) (u : List Char)
    (h : ∃ c ∈ u, p c = false) (v : List Char) :
    (u ++ v).dropWhile p = u.dropWhile p ++ v := by
  induction u with
  | nil =>
    rcases h with ⟨c, hc, _⟩
    exact absurd hc (List.not_mem_nil c)
  | cons x u' ih =>
    by_cases hx : p x = true
    · rw [List.cons_append, List.dropWhile_cons_of_pos hx, List.dropWhile_cons_of_pos hx]
      apply ih
      rcases h with ⟨c, hc, hcp⟩
      rcases List.mem_cons.mp hc with rfl | hc'
      · rw [hx] at hcp; exact absurd hcp (by simp)
      · exact ⟨c, hc', hcp⟩
    · rw [List.cons_append, List.dropWhile_cons_of_neg hx, List.dropWhile_cons_of_neg hx]
      rfl

theorem dropWhile_append_of_allws (p : Char → Bool) (u : List Char)
    (h : ∀ c ∈ u, p c = true) (v : List Char) :
    (u ++ v).dropWhile p = v.dropWhile p := by
  induction u with
  | nil => rfl
  | cons x u' ih =>
    rw [List.cons_append, List.dropWhile_cons_of_pos (h x (List.mem_cons_self _ _))]
    exact ih (fun c hc => h c (List.mem_cons_of_mem _ hc))

theorem dropWhile_eq_nil_of_all (p : Char → Bool) (u : List Char)
    (h : ∀ c ∈ u, p c = true) : u.dropWhile p = [] := by
  induction u with
  | nil => rfl
  | cons x u' ih =>
    rw [List.dropWhile_cons_of_pos (h x (List.mem_cons_self _ _))]
    exact ih (fun c hc => h c (List.mem_cons_of_mem _ hc))

theorem dropWhile_head_false (p : Char → Bool) (l : List Char) (c : Char)
    (h : (l.dropWhile p).head? = some c) : p c = false := by
  induction l with
  | nil => simp at h
  | cons x l' ih =>
    by_cases hx : p x = true
    · rw [List.dropWhile_cons_of_pos hx] at h
      exact ih h
    · rw [List.dropWhile_cons_of_neg hx] at h
      injection h with h
      rw [← h]
      simpa using hx

theorem getLast?_mem_self (l : List Char) (c : Char) (h : l.getLast? = some c) : c ∈ l := by
  rw [← List.head?_reverse] at h
  refine List.mem_reverse.mp ?_
  cases hr : l.reverse with
  | nil => rw [hr] at h; simp at h
  | cons x t =>
    rw [hr] at h
    injection h with h
    rw [← h] at *
    exact List.mem_cons_self _ _

theorem getLast?_dropWhile (p : Char → Bool) (l : List Char) (c : Char)
    (hc : l.getLast? = some c) (hpc : p c = false) :
    (l.dropWhile p).getLast? = some c := by
  rcases List.dropWhile_suffix p (l := l) with ⟨w, hw⟩
  by_cases hnil : l.dropWhile p = []
  · exfalso
    have hall : l = l.takeWhile p := by
      have htd := List.takeWhile_append_dropWhile (p := p) (l := l)
      rw [hnil, List.append_nil] at htd
      exact htd.symm
    have hcl : c ∈ l.takeWhile p := by
      rw [← hall]
      exact getLast?_mem_self l c hc
    have hpt : p c = true := List.mem_takeWhile_imp hcl
    rw [hpt] at hpc
    exact absurd hpc (by simp)
  · rw [← hw] at hc
    rwa [getLast?_append_right w _ hnil] at hc

theorem segBasic_suffix (u u' : List Char) (h : segBasic u) (hs : u' <:+ u) :
    segBasic u' := by
  rcases hs with ⟨w, hw⟩
  obtain ⟨h1, h2, h3, h4⟩ := h
  subst hw
  exact ⟨fun hm => h1 (List.mem_append.mpr (Or.inr hm)),
    fun hm => h2 (List.mem_append.mpr (Or.inr hm)),
    noPair_append_right _ _ _ _ h3,
    noPair_append_right _ _ _ _ h4⟩

theorem mem_tail_dropLast (l : List (List Char)) (x : List Char)
    (h : x ∈ l.tail.dropLast) : x ∈ l.dropLast := by
  cases l with
  | nil => simp at h
  | cons a t =>
    simp only [List.tail_cons] at h
    cases t with
    | nil => simp at h
    | cons b t' =>
      rw [List.dropLast_cons_of_ne_nil (by simp)]
      exact List.mem_cons_of_mem _ h

theorem dropLast_map_seg (f : List Char → List Char) (l : List (List Char)) :
    (l.map f).dropLast = l.dropLast.map f := by
  induction l with
  | nil => rfl
  | cons a t ih =>
    cases t with
    | nil => rfl
    | cons b t' =>
      rw [show (a :: b :: t').map f = f a :: (b :: t').map f from rfl,
        List.dropLast_cons_of_ne_nil (by simp),
        List.dropLast_cons_of_ne_nil (by simp)]
      rw [show (b :: t').map f = f b :: t'.map f from rfl] at ih ⊢
      rw [ih]
      rfl

theorem noPair_iff_not_adjacent (a b : Char) (l : List Char) :
    noPair a b l = true ↔ ∀ pre post, l ≠ pre ++ a :: b :: post := by
  constructor
  · have aux : ∀ (pre l : List Char), noPair a b l = true →
        ∀ post, l ≠ pre ++ a :: b :: post := by
      intro pre
      induction pre with
      | nil =>
        intro l h post heq
        subst heq
        exact ((noPair_cons_iff _ _ _ _).mp h).1 ⟨rfl, rfl⟩
      | cons p pre' ih =>
        intro l h post heq
        subst heq
        exact ih _ (noPair_tail _ _ _ _ h) post rfl
    exact fun h pre post => aux pre l h post
  · intro h
    induction l with
    | nil => rfl
    | cons x t ih =>
      rw [noPair_cons_iff]
      constructor
      · rintro ⟨rfl, hhd⟩
        cases t with
        | nil => simp at hhd
        | cons y t' =>
          injection hhd with hhd
          subst hhd
          exact h [] t' rfl
      · exact ih (fun pre post heq => h (x :: pre) post (by rw [heq]; rfl))

theorem noPair_reverse (a : Char) (l : List Char) (h : noPair a a l = true) :
    noPair a a l.reverse = true := by
  rw [noPair_iff_not_adjacent] at h ⊢
  intro pre post heq
  apply h post.reverse pre.reverse
  have := congrArg List.reverse heq
  rw [List.reverse_reverse] at this
  rw [this]
  simp

theorem segBasic_reverse (u : List Char) (h : segBasic u) : segBasic u.reverse := by
  obtain ⟨h1, h2, h3, h4⟩ := h
  exact ⟨fun hm => h1 (List.mem_reverse.mp hm), fun hm => h2 (List.mem_reverse.mp hm),
    noPair_reverse ' ' u h3, noPair_reverse '|' u h4⟩

theorem hasNonWs_reverse (u : List Char) (h : hasNonWs u) : hasNonWs u.reverse := by
  rcases h with ⟨c, hc, hcw⟩
  exact ⟨c, List.mem_reverse.mpr hc, hcw⟩

theorem joinWith_snoc (sep x : List Char) (us : List (List Char)) (h : us ≠ []) :
    joinWith sep (us ++ [x]) = joinWith sep us ++ sep ++ x := by
  induction us with
  | nil => exact absurd rfl h
  | cons u us ih =>
    cases us with
    | nil => rfl
    | cons v vs =>
      rw [show (u :: v :: vs) ++ [x] = u :: ((v :: vs) ++ [x]) from rfl]
      rw [joinWith_cons sep u ((v :: vs) ++ [x]) (by simp)]
      rw [ih (by simp)]
      rw [joinWith_cons sep u (v :: vs) (by simp)]
      simp [List.append_assoc]

theorem reverse_joinWith_nl2 (us : List (List Char)) :
    (joinWith nl2 us).reverse = joinWith nl2 ((us.map List.reverse).reverse) := by
  induction us with
  | nil => rfl
  | cons u us ih =>
    cases us with
    | nil => rfl
    | cons v vs =>
      rw [joinWith_cons nl2 u (v :: vs) (by simp)]
      rw [List.reverse_append, List.reverse_append, ih]
      rw [show (u :: v :: vs).map List.reverse = u.reverse :: (v :: vs).map List.reverse from rfl]
      rw [show (u.reverse :: (v :: vs).map List.reverse).reverse =
        ((v :: vs).map List.reverse).reverse ++ [u.reverse] by simp]
      rw [joinWith_snoc nl2 u.reverse (((v :: vs).map List.reverse).reverse) (by simp)]
      rw [show nl2.reverse = nl2 from rfl]
      simp [List.append_assoc]

theorem dropWhile_nonempty_of_nonws (u : List Char) (hnw : hasNonWs u) :
    u.dropWhile isPySpace ≠ [] := by
  intro h0
  have hall : u = u.takeWhile isPySpace := by
    have htd := List.takeWhile_append_dropWhile (p := isPySpace) (l := u)
    rw [h0, List.append_nil] at htd
    exact htd.symm
  rcases hnw with ⟨c, hc, hcw⟩
  rw [hall] at hc
  rw [List.mem_takeWhile_imp hc] at hcw
  exact absurd hcw (by simp)

theorem dropWhile_ws_join : ∀ us : List (List Char),
    (∀ u ∈ us, segBasic u) → (∀ u ∈ us.tail.dropLast, hasNonWs u) →
    (joinWith nl2 us).dropWhile isPySpace = [] ∨
    ∃ w₀ ws₁, (joinWith nl2 us).dropWhile isPySpace = joinWith nl2 (w₀ :: ws₁) ∧
      (∀ u ∈ w₀ :: ws₁, segBasic u) ∧
      (∀ u ∈ (w₀ :: ws₁).tail.dropLast, hasNonWs u) ∧
      (∃ c t, w₀ = c :: t ∧ isPySpace c = false) ∧
      ∃ uL, us.getLast? = some uL ∧
        ((w₀ :: ws₁).getLast? = some uL ∨ (ws₁ = [] ∧ w₀ = uL.dropWhile isPySpace)) := by
  intro us
  induction us with
  | nil => intro _ _; left; rfl
  | cons u us' ih =>
    intro hbasic hmid
    by_cases hnw : hasNonWs u
    · right
      have hwne : u.dropWhile isPySpace ≠ [] := dropWhile_nonempty_of_nonws u hnw
      refine ⟨u.dropWhile isPySpace, us', ?_, ?_, ?_, ?_, ?_⟩
      · cases us' with
        | nil => rfl
        | cons v vs =>
          rw [joinWith_cons nl2 u (v :: vs) (by simp), List.append_assoc,
            dropWhile_append_of_nonws _ u hnw _,
            joinWith_cons nl2 _ (v :: vs) (by simp), List.append_assoc]
      · intro x hx
        rcases List.mem_cons.mp hx with rfl | hx'
        · exact segBasic_suffix u _ (hbasic u (List.mem_cons_self _ _))
            (List.dropWhile_suffix _)
        · exact hbasic x (List.mem_cons_of_mem _ hx')
      · exact hmid
      · cases hd : u.dropWhile isPySpace with
        | nil => exact absurd hd hwne
        | cons c t =>
          refine ⟨c, t, rfl, ?_⟩
          exact dropWhile_head_false isPySpace u c (by rw [hd]; rfl)
      · cases us' with
        | nil => exact ⟨u, rfl, Or.inr ⟨rfl, rfl⟩⟩
        | cons v vs =>
          have hsome : ((v :: vs).getLast?).isSome := List.getLast?_isSome.mpr (by simp)
          cases hL : (v :: vs).getLast? with
          | none => rw [hL] at hsome; simp at hsome
          | some uL =>
            exact ⟨uL, by rw [List.getLast?_cons_cons]; exact hL,
              Or.inl (by rw [List.getLast?_cons_cons]; exact hL)⟩
    · have hall : ∀ c ∈ u, isPySpace c = true := by
        intro c hc
        by_contra hcn
        exact hnw ⟨c, hc, by simpa using hcn⟩
      cases us' with
      | nil =>
        left
        exact dropWhile_eq_nil_of_all _ u hall
      | cons v vs =>
        rw [joinWith_cons nl2 u (v :: vs) (by simp), List.append_assoc,
          dropWhile_append_of_allws _ u hall _]
        rw [show nl2 ++ joinWith nl2 (v :: vs) = '\n' :: '\n' :: joinWith nl2 (v :: vs) from rfl]
        rw [List.dropWhile_cons_of_pos (by decide), List.dropWhile_cons_of_pos (by decide)]
        have ih' := ih (fun x hx => hbasic x (List.mem_cons_of_mem _ hx))
          (fun x hx => hmid x (mem_tail_dropLast _ x hx))
        rcases ih' with h0 | ⟨w₀, ws₁, heq, hb, hm, hhd, uL, hL, hor⟩
        · left; exact h0
        · right
          exact ⟨w₀, ws₁, heq, hb, hm, hhd, uL,
            by rw [List.getLast?_cons_cons]; exact hL, hor⟩

theorem getLast?_reverse_seg (l : List (List Char)) : l.reverse.getLast? = l.head? := by
  rw [← List.head?_reverse, List.reverse_reverse]

theorem getLast?_reverse_chars (l : List Char) : l.reverse.getLast? = l.head? := by
  rw [← List.head?_reverse, List.reverse_reverse]

theorem tail_map_seg (f : List Char → List Char) (l : List (List Char)) :
    (l.map f).tail = l.tail.map f := by
  cases l <;> rfl

theorem tail_dropLast_comm_seg (l : List (List Char)) :
    l.dropLast.tail = l.tail.dropLast := by
  cases l with
  | nil => rfl
  | cons a t =>
    cases t with
    | nil => rfl
    | cons b t' =>
      rw [List.dropLast_cons_of_ne_nil (by simp)]
      rfl

theorem getLast?_map_seg (f : List Char → List Char) (l : List (List Char)) :
    (l.map f).getLast? = (l.getLast?).map f := by
  rw [← List.head?_reverse, ← List.map_reverse, List.head?_map, List.head?_reverse]

theorem mem_revSegs (A : List (List Char)) (x : List Char)
    (h : x ∈ (A.map List.reverse).reverse) : ∃ a ∈ A, x = a.reverse := by
  rcases List.mem_map.mp (List.mem_reverse.mp h) with ⟨a, ha, rfl⟩
  exact ⟨a, ha, rfl⟩

theorem mem_revSegs_tail_dropLast (A : List (List Char)) (x : List Char)
    (h : x ∈ ((A.map List.reverse).reverse).tail.dropLast) :
    ∃ a ∈ A.tail.dropLast, x = a.reverse := by
  rw [List.tail_reverse, List.dropLast_reverse, dropLast_map_seg, tail_map_seg,
    tail_dropLast_comm_seg] at h
  rcases List.mem_map.mp (List.mem_reverse.mp h) with ⟨a, ha, rfl⟩
  exact ⟨a, ha, rfl⟩

theorem mem_revSegs_tail (C : List (List Char)) (x : List Char)
    (h : x ∈ ((C.map List.reverse).reverse).tail) :
    ∃ a ∈ C.dropLast, x = a.reverse := by
  rw [List.tail_reverse, dropLast_map_seg] at h
  rcases List.mem_map.mp (List.mem_reverse.mp h) with ⟨a, ha, rfl⟩
  exact ⟨a, ha, rfl⟩

theorem strip_join_cleanShape (ws' : List (List Char))
    (hbasic : ∀ u ∈ ws', segBasic u)
    (hmid : ∀ u ∈ ws'.tail.dropLast, hasNonWs u) :
    CleanShape (pyStripChars (joinWith nl2 ws')) := by
  unfold pyStripChars
  rcases dropWhile_ws_join ws' hbasic hmid with hnil | ⟨w₀, ws₁, heq, hbA, hmA, ⟨c, t, hw₀, hc⟩, uL, hL, hor⟩
  · rw [hnil]
    exact Or.inl rfl
  · rw [heq]
    rw [reverse_joinWith_nl2 (w₀ :: ws₁)]
    set A := w₀ :: ws₁ with hA
    set B := (A.map List.reverse).reverse with hB
    have hbB : ∀ u ∈ B, segBasic u := by
      intro u hu
      rcases mem_revSegs A u hu with ⟨a, ha, rfl⟩
      exact segBasic_reverse a (hbA a ha)
    have hmB : ∀ u ∈ B.tail.dropLast, hasNonWs u := by
      intro u hu
      rcases mem_revSegs_tail_dropLast A u hu with ⟨a, ha, rfl⟩
      exact hasNonWs_reverse a (hmA a ha)
    rcases dropWhile_ws_join B hbB hmB with hnil2 | ⟨v₀, vs₁, heq2, hbC, hmC, ⟨d, s, hv₀, hd⟩, BL, hBL, hor2⟩
    · rw [hnil2]
      exact Or.inl rfl
    · rw [heq2, reverse_joinWith_nl2 (v₀ :: vs₁)]
      set C := v₀ :: vs₁ with hC
      set D := (C.map List.reverse).reverse with hD
      right
      have hBLval : BL = w₀.reverse := by
        have : B.getLast? = some w₀.reverse := by
          rw [hB, getLast?_reverse_seg, hA]
          rfl
        rw [this] at hBL
        injection hBL with h
        exact h.symm
      refine ⟨D, ⟨?_, ?_, ?_, ?_⟩, rfl⟩
      · intro u hu
        rcases mem_revSegs C u hu with ⟨a, ha, rfl⟩
        exact segBasic_reverse a (hbC a ha)
      · intro u hu
        rcases mem_revSegs_tail C u hu with ⟨a, ha, rfl⟩
        apply hasNonWs_reverse
        rw [hC] at ha
        cases vs₁ with
        | nil => simp at ha
        | cons e es =>
          rw [List.dropLast_cons_of_ne_nil (by simp)] at ha
          rcases List.mem_cons.mp ha with rfl | ha'
          · exact ⟨d, by rw [hv₀]; exact List.mem_cons_self _ _, hd⟩
          · exact hmC a (by rw [hC]; simpa using ha')
      · rcases hor2 with hlast2 | ⟨hvs1, hv0eq⟩
        · have hheadD : D.head? = some w₀ := by
            rw [hD, List.head?_reverse, getLast?_map_seg, hlast2, hBLval]
            simp
          exact ⟨w₀, c, t, hheadD, hw₀, hc⟩
        · have hheadD : D.head? = some v₀.reverse := by
            rw [hD, hC, hvs1]
            rfl
          have hv₀last : v₀.getLast? = some c := by
            rw [hv0eq, hBLval]
            apply getLast?_dropWhile
            · rw [getLast?_reverse_chars, hw₀]
              rfl
            · exact hc
          cases hrv : v₀.reverse with
          | nil =>
            exfalso
            have : v₀ = [] := by
              have := congrArg List.reverse hrv
              rwa [List.reverse_reverse] at this
            rw [this] at hv₀last
            simp at hv₀last
          | cons c' t' =>
            have hc' : c' = c := by
              have : v₀.reverse.head? = some c := by
                rw [List.head?_reverse, hv₀last]
              rw [hrv] at this
              injection this
            refine ⟨v₀.reverse, c', t', by rw [hheadD, hrv], hrv, by rw [hc']; exact hc⟩
      · refine ⟨v₀.reverse, d, ?_, ?_⟩
        · rw [hD, getLast?_reverse_seg, hC]
          rfl
        · rw [getLast?_reverse_chars, hv₀]
          exact ⟨rfl, hd⟩

theorem cleanShape_cleanChars (l : List Char) (hdp : noPair '|' '|' l = true) :
    CleanShape (cleanChars l) := by
  unfold cleanChars
  have h1 : noPair '|' '|' (dehyphGo .outside l) = true :=
    dehyphGo_noPair l.length l (Nat.le_refl _) hdp .outside
  rcases sub2Go_spec (dehyphGo .outside l).length (dehyphGo .outside l) (Nat.le_refl _)
      none (by intro b p h; cases h) with ⟨vs, heq, hmidv, hnpv, _⟩
  rw [heq]
  rw [nlToSpace_joinWith]
  rw [replacePlGo_join (vs.map nlToSpace) (by
    intro u hu
    rcases List.mem_map.mp hu with ⟨v, hv, rfl⟩
    exact nlToSpace_noPair v (hnpv h1 v hv))]
  rw [collapseGo_joinWith]
  apply strip_join_cleanShape
  · intro u hu
    rcases List.mem_map.mp hu with ⟨v, hv, rfl⟩
    rcases List.mem_map.mp hv with ⟨w, hw, rfl⟩
    refine ⟨collapseGo_no_nl (nlToSpace w) (nlToSpace_no_nl w) false,
      collapseGo_no_tab (nlToSpace w) false,
      collapseGo_noDS (nlToSpace w) false,
      collapseGo_noDP (nlToSpace w) (nlToSpace_noPair w (hnpv h1 w hw)) false⟩
  · intro u hu
    rw [tail_map_seg, dropLast_map_seg] at hu
    rcases List.mem_map.mp hu with ⟨v, hv, rfl⟩
    rw [tail_map_seg, dropLast_map_seg] at hv
    rcases List.mem_map.mp hv with ⟨w, hw, rfl⟩
    exact collapseGo_hasNonWs (nlToSpace w) (nlToSpace_hasNonWs w (hmidv w hw))

/-- C10: clean_text is not idempotent in general (the placeholder literal
in the input collides with the paragraph marker), but it is idempotent on
every input containing no two adjacent pipe characters: a second pass of
dehyphenation, soft-line-break joining, paragraph restoration, whitespace
collapsing and stripping changes nothing. -/
theorem clean_text_idempotent_of_no_adjacent_pipes (s : String)
    (h : noPair '|' '|' s.data = true) :
    clean_text (clean_text s) = clean_text s := by
  unfold clean_text
  by_cases hnil : s.data = []
  · simp [hnil]
  · have hid : cleanChars (cleanChars s.data) = cleanChars s.data :=
      cleanChars_id_of_cleanShape _ (cleanShape_cleanChars s.data h)
    by_cases hm : cleanChars s.data = []
    · rw [if_neg hnil,
        show (String.mk (cleanChars s.data)).data = cleanChars s.data from rfl,
        if_pos hm, hm]
    · rw [if_neg hnil,
        show (String.mk (cleanChars s.data)).data = cleanChars s.data from rfl,
        if_neg hm, hid]

/-- C10 counterexample: on an input containing the literal placeholder
string, the first pass concatenates adjacent paragraph markers into a run
of six newlines which the second pass collapses, so the claim as stated
fails. -/
theorem clean_text_idempotent_counterexample :
    clean_text (clean_text "a\n\n||PARAGRAPH||\n\nb") ≠
      clean_text "a\n\n||PARAGRAPH||\n\nb" := by
  decide

theorem clean_text_idempotent_witness :
    noPair '|' '|' ("Assess-\nment due\nin 2024.\n\n  Pay\tnow.").data = true ∧
    clean_text (clean_text "Assess-\nment due\nin 2024.\n\n  Pay\tnow.") =
      clean_text "Assess-\nment due\nin 2024.\n\n  Pay\tnow." :=
  ⟨by decide, clean_text_idempotent_of_no_adjacent_pipes _ (by decide)⟩
